import Mathlib

/-!
Verification of the natural-language specification of the
`databricks-chatbot-app` repository against its code.

The development shallowly embeds the relevant Python code:

* `src/services/agent_service.py` — `AgentService` (`validate_temperature`,
  `__init__`, `create_agent`, `update_configuration`, `get_response`);
* `src/app.py` — `get_openai_api_key`;
* `src/services/chat_service.py` — `ChatService` (`save_chat`, `load_chat`,
  `delete_chat`);
* `deploy.py` — `DatabricksDeployer.display_friendly_error`,
  `DatabricksDeployer.extract_json_from_output`,
  `DatabricksDeployer.get_manageable_scopes_paginated`, and `main`.

Python strings are embedded as `String` (or as `List Char` where the code
scans character by character), numbers as `Int`/`ℚ`, fallible calls as
`Except`/`Option`, and the external world (the LangChain library, the
Databricks CLI, the file system, `dbutils`, the `json` standard-library
module) as explicit function arguments, finite maps, or faithful models
of the documented library behaviour.

The file is organised as definitions first, then theorems.
-/

namespace ChatbotSpec

/-! ## Agent service (`src/services/agent_service.py`) -/

/-- A Python value passed as the `temperature` argument: either a number
(Python `int` or `float`, modelled together as a rational) or a value of
some non-numeric type, for which `isinstance(temperature, (int, float))`
is false. -/
inductive PyTemp where
  | num (q : ℚ)
  | nonNum
deriving DecidableEq

/-- `AgentService.validate_temperature` (agent_service.py lines 24-30):
raises `ValueError` for non-numbers and for numbers outside `[0, 1]`.
The error value carries the Python exception message. -/
def validate_temperature (temperature : PyTemp) : Except String Unit :=
  match temperature with
  | .nonNum => .error "Temperature must be a number"
  | .num q =>
    if q < 0 ∨ q > 1 then .error "Temperature must be between 0 and 1"
    else .ok ()

/-- Invalid temperature argument in the sense of the claim: not a
number, or a number outside `[0, 1]`. -/
def invalidTemp (t : PyTemp) : Prop :=
  t = .nonNum ∨ ∃ q, t = .num q ∧ (q < 0 ∨ q > 1)

/-- The mutable state of an `AgentService` object.  The LangChain objects
(`llm`, `memory`, `agent_executor`) are external; each is modelled by the
generation number of the `create_agent` call that built it, so that two
objects are "the same object" exactly when their generations agree.
`memory` additionally carries the list of buffered conversation messages
(a fresh `ConversationBufferMemory` starts empty).  `builds` counts how
many times `create_agent` has run on this object. -/
structure AgentState where
  model_name : String
  temperature : PyTemp
  system_prompt : String
  openai_api_key : String
  llm : Option Nat
  memory : Option (Nat × List String)
  agent_executor : Option Nat
  builds : Nat
deriving DecidableEq

/-- `AgentService.create_agent` (agent_service.py lines 32-69): rebuilds
the LLM, a fresh empty `ConversationBufferMemory`, and a new
`AgentExecutor` from the current configuration fields. -/
def create_agent (st : AgentState) : AgentState :=
  let g := st.builds + 1
  { st with
    llm := some g
    memory := some (g, [])
    agent_executor := some g
    builds := g }

/-- `AgentService.__init__` (agent_service.py lines 11-22): validates the
temperature first, then stores the configuration and calls
`create_agent`.  On a `ValueError` the constructor aborts before any
agent construction. -/
def AgentService_init (model_name : String) (temperature : PyTemp)
    (system_prompt : String) (openai_api_key : String) :
    Except String AgentState :=
  match validate_temperature temperature with
  | .error e => .error e
  | .ok _ =>
    .ok (create_agent
      { model_name := model_name
        temperature := temperature
        system_prompt := system_prompt
        openai_api_key := openai_api_key
        llm := none
        memory := none
        agent_executor := none
        builds := 0 })

/-- `AgentService.update_configuration` (agent_service.py lines 71-82).
The result is the state of the object after the call together with the
message of the raised `ValueError`, if any: Python mutates the object
field by field, so a state is returned even on the error path, holding
whatever had been assigned before the exception.  The temperature is
validated before any field is assigned. -/
def update_configuration (st : AgentState) (model_name : Option String)
    (temperature : Option PyTemp) (system_prompt : Option String) :
    AgentState × Option String :=
  match temperature with
  | some t =>
    match validate_temperature t with
    | .error e => (st, some e)
    | .ok _ =>
      let st1 := { st with temperature := t }
      let st2 := match model_name with
        | some m => { st1 with model_name := m }
        | none => st1
      let st3 := match system_prompt with
        | some p => { st2 with system_prompt := p }
        | none => st2
      (create_agent st3, none)
  | none =>
    let st2 := match model_name with
      | some m => { st with model_name := m }
      | none => st
    let st3 := match system_prompt with
      | some p => { st2 with system_prompt := p }
      | none => st2
    (create_agent st3, none)

/-- The result of `AgentService.get_response`: the `ValueError` raised on
empty input, an exception of the underlying library propagated by
`raise e`, or the `output` field of the returned dictionary.  `ε` is the
(arbitrary) type of library exceptions. -/
inductive RespResult (ε : Type) where
  | valueError (msg : String)
  | raised (e : ε)
  | ok (out : String)
deriving DecidableEq

/-- The value returned by `agent_executor.invoke`: a dictionary whose
`output` entry is the generated text. -/
structure AgentResponse where
  output : String
deriving DecidableEq

/-- `AgentService.get_response` (agent_service.py lines 84-99).  `invoke`
is the underlying `agent_executor.invoke`; the result records the state
after the call, the outcome, and the ordered list of inputs `invoke` was
actually called on (so that retry behaviour is observable). -/
def get_response {ε : Type} (st : AgentState) (user_input : String)
    (invoke : String → Except ε AgentResponse) :
    AgentState × RespResult ε × List String :=
  if user_input = "" then
    (st, .valueError "Input must be a non-empty string", [])
  else
    let st1 := if st.agent_executor = none then create_agent st else st
    match invoke user_input with
    | .error e => (st1, .raised e, [user_input])
    | .ok r => (st1, .ok r.output, [user_input])

/-- A concrete `AgentService` object state, as produced by the
constructor with valid arguments (one `create_agent` call has run). -/
def sampleAgentState : AgentState :=
  { model_name := "gpt-3.5-turbo"
    temperature := .num 1
    system_prompt := "You are a helpful Databricks AI assistant."
    openai_api_key := "sk-test"
    llm := some 1
    memory := some (1, [])
    agent_executor := some 1
    builds := 1 }

/-! ## OpenAI key resolution (`src/app.py` lines 26-52) -/

/-- The outcome of `dbutils.secrets.get(scope="chatbot-secrets",
key="OPENAI_API_KEY")`: the call either raises (not in a Databricks
environment, or secret not found — every exception is swallowed by the
`except` clause) or returns a string. -/
inductive SecretOutcome where
  | raises
  | returns (v : String)
deriving DecidableEq

/-- Python truthiness of the `api_key` variable: `None` and the empty
string are falsy. -/
def pyFalsyStr (v : Option String) : Bool :=
  match v with
  | none => true
  | some s => s = ""

/-- `get_openai_api_key` (app.py lines 26-52): try the Databricks secret
store, fall back to the `OPENAI_API_KEY` environment variable
(`env`, with `none` for an unset variable), and raise `ValueError` when
both fail to provide a key. -/
def get_openai_api_key (secret : SecretOutcome) (env : Option String) :
    Except String String :=
  let k0 : Option String :=
    match secret with
    | .raises => none
    | .returns v => some v
  let k1 : Option String := if pyFalsyStr k0 then env else k0
  if pyFalsyStr k1 then
    .error "OpenAI API key not found. Please set it either in Databricks secrets or as an environment variable OPENAI_API_KEY"
  else
    match k1 with
    | some v => .ok v
    | none => .error "unreachable"

/-- The secret-store lookup yields no key: it raises, or returns an
empty (falsy) string. -/
def secretNoKey (secret : SecretOutcome) : Bool :=
  match secret with
  | .raises => true
  | .returns v => v = ""

/-! ## Chat service (`src/services/chat_service.py`) -/

/-- A message passed to `ChatService.save_chat`: either a Python dict
`{"role": r, "content": c}` or a LangChain message object, read through
its `type` and `content` attributes. -/
inductive InMsg where
  | dict (role : String) (content : String)
  | lc (ty : String) (content : String)
deriving DecidableEq

/-- A LangChain message object reconstructed by `ChatService.load_chat`. -/
inductive LCMessage where
  | system (content : String)
  | human (content : String)
  | ai (content : String)
deriving DecidableEq

/-- The JSON document `save_chat` writes for one session: fields
`id`, `name` (nullable), `messages` (role/content records, in order) and
`timestamp`. -/
structure ChatData where
  id : String
  name : Option String
  messages : List (String × String)
  timestamp : String
deriving DecidableEq

/-- The chat-history directory: one stored file per chat id. -/
def ChatFs : Type := String → Option ChatData

/-- The chat-history directory with no session files. -/
def emptyChatFs : ChatFs := fun _ => none

/-- `ChatService.save_chat` (chat_service.py lines 15-41): formats each
message to a role/content record (`role`/`content` keys for dicts,
`type`/`content` attributes otherwise) and overwrites
`<chat_dir>/<chat_id>.json` wholesale.  `now` is
`datetime.now().isoformat()`. -/
def save_chat (fs : ChatFs) (chat_id : String) (chat_name : Option String)
    (messages : List InMsg) (now : String) : ChatFs :=
  let formatted := messages.map fun m =>
    match m with
    | .dict role content => (role, content)
    | .lc ty content => (ty, content)
  let data : ChatData :=
    { id := chat_id, name := chat_name, messages := formatted, timestamp := now }
  fun k => if k = chat_id then some data else fs k

/-- `ChatService.load_chat` (chat_service.py lines 43-58): if the file
exists, rebuild LangChain messages from the stored records — keeping
only roles `system`, `human` and `ai` — else return `(None, [])`. -/
def load_chat (fs : ChatFs) (chat_id : String) :
    Option String × List LCMessage :=
  match fs chat_id with
  | none => (none, [])
  | some data =>
    (data.name,
      data.messages.filterMap fun m =>
        if m.1 = "system" then some (.system m.2)
        else if m.1 = "human" then some (.human m.2)
        else if m.1 = "ai" then some (.ai m.2)
        else none)

/-- `ChatService.delete_chat` (chat_service.py lines 73-77): unlink the
file when it exists, otherwise do nothing. -/
def delete_chat (fs : ChatFs) (chat_id : String) : ChatFs :=
  match fs chat_id with
  | some _ => fun k => if k = chat_id then none else fs k
  | none => fs

/-! ## Deploy CLI entry point (`deploy.py` lines 1939-1978) -/

/-- The six subcommands of the deploy tool. -/
inductive DeployCommand where
  | deploy | redeploy | status | stop | start | delete
deriving DecidableEq

/-- `main` (deploy.py lines 1939-1978) with a command present: dispatch
to the corresponding `DatabricksDeployer` method and fall off the end of
the function.  `opSuccess` gives the success boolean each method
returns.  The result pairs that returned boolean with the process exit
code; `main` never inspects the boolean and never calls `sys.exit`, so
the interpreter exits with code 0 on every path. -/
def main_dispatch (cmd : DeployCommand) (opSuccess : DeployCommand → Bool) :
    Bool × Nat :=
  match cmd with
  | .start => (opSuccess .start, 0)
  | .stop => (opSuccess .stop, 0)
  | .status => (opSuccess .status, 0)
  | .delete => (opSuccess .delete, 0)
  | .deploy => (opSuccess .deploy, 0)
  | .redeploy => (opSuccess .redeploy, 0)

/-! ## Friendly error classification (`deploy.py` lines 137-199) -/

/-- ASCII lower-casing of one character, as `str.lower()` acts on the
ASCII range (every keyword the classifier searches for is ASCII). -/
def lowerChar (c : Char) : Char :=
  if 65 ≤ c.toNat ∧ c.toNat ≤ 90 then Char.ofNat (c.toNat + 32) else c

/-- `s.lower()` as a character list. -/
def pyLower (s : String) : List Char := s.toList.map lowerChar

/-- Python's `needle in hay` on strings: contiguous-subsequence test. -/
def isSubChars (needle : List Char) : List Char → Bool
  | [] => needle.isEmpty
  | c :: rest => needle.isPrefixOf (c :: rest) || isSubChars needle rest

/-- `needle in msg.lower()` for an ASCII `needle`. -/
def containsLower (msg : String) (needle : String) : Bool :=
  isSubChars needle.toList (pyLower msg)

/-- The fixed error categories of `display_friendly_error`; `generic`
is the fall-through with the plain "Error" title. -/
inductive ErrorCategory where
  | limitReached | permission | notFound | invalidRequest | generic
deriving DecidableEq

/-- `DatabricksDeployer.display_friendly_error` (deploy.py lines
137-199), restricted to its observable classification: the category
chosen for the message and the canned suggestion lines attached to it,
following the `if`/`elif` chain of the source. -/
def display_friendly_error (msg : String) : ErrorCategory × List String :=
  if containsLower msg "max limit" && containsLower msg "scope" then
    (.limitReached,
      ["Your workspace has reached the maximum number of secret scopes (1000)",
       "💡 Solutions:",
       "  • Use an existing scope: databricks secrets list-scopes",
       "  • Delete unused scopes: databricks secrets delete-scope <scope-name>",
       "  • Contact your workspace admin to clean up old scopes",
       "  • Consider using a shared scope for multiple apps"])
  else if containsLower msg "permission" || containsLower msg "access" then
    (.permission,
      ["You don't have sufficient permissions for this operation",
       "💡 Solutions:",
       "  • Contact your workspace administrator",
       "  • Ensure you have 'workspace admin' or required permissions",
       "  • Check if you're in the correct workspace"])
  else if containsLower msg "not found" then
    (.notFound,
      ["The requested resource doesn't exist",
       "💡 Solutions:",
       "  • Verify the resource name is correct",
       "  • Check if you have access to the resource",
       "  • Ensure you're in the correct workspace"])
  else if containsLower msg "invalid" || containsLower msg "bad request" then
    (.invalidRequest,
      ["The request parameters are invalid",
       "💡 Solutions:",
       "  • Check the format of names (no spaces, special characters)",
       "  • Verify all required parameters are provided",
       "  • Try with different names if validation failed"])
  else
    (.generic, [])

/-- Spec-side reading of the claim: the substring heuristic that defines
each category. -/
def categoryMatches (c : ErrorCategory) (msg : String) : Bool :=
  match c with
  | .limitReached => containsLower msg "max limit" && containsLower msg "scope"
  | .permission => containsLower msg "permission" || containsLower msg "access"
  | .notFound => containsLower msg "not found"
  | .invalidRequest => containsLower msg "invalid" || containsLower msg "bad request"
  | .generic => true

/-- Spec-side reading of the claim: the fixed priority order in which
the categories are checked. -/
def categoryOrder : List ErrorCategory :=
  [.limitReached, .permission, .notFound, .invalidRequest, .generic]

/-- Spec-side reading of the claim: classification picks the first
category in the priority order whose heuristic matches. -/
def firstMatchingCategory (msg : String) : ErrorCategory :=
  (categoryOrder.find? (categoryMatches · msg)).getD .generic

/-- Spec-side reading of the claim: the canned remediation suggestions
belonging to each category (none for `generic`). -/
def cannedSuggestions (c : ErrorCategory) : List String :=
  match c with
  | .limitReached =>
      ["Your workspace has reached the maximum number of secret scopes (1000)",
       "💡 Solutions:",
       "  • Use an existing scope: databricks secrets list-scopes",
       "  • Delete unused scopes: databricks secrets delete-scope <scope-name>",
       "  • Contact your workspace admin to clean up old scopes",
       "  • Consider using a shared scope for multiple apps"]
  | .permission =>
      ["You don't have sufficient permissions for this operation",
       "💡 Solutions:",
       "  • Contact your workspace administrator",
       "  • Ensure you have 'workspace admin' or required permissions",
       "  • Check if you're in the correct workspace"]
  | .notFound =>
      ["The requested resource doesn't exist",
       "💡 Solutions:",
       "  • Verify the resource name is correct",
       "  • Check if you have access to the resource",
       "  • Ensure you're in the correct workspace"]
  | .invalidRequest =>
      ["The request parameters are invalid",
       "💡 Solutions:",
       "  • Check the format of names (no spaces, special characters)",
       "  • Verify all required parameters are provided",
       "  • Try with different names if validation failed"]
  | .generic => []

/-! ## Manageable-scope discovery (`deploy.py` lines 649-735) -/

/-- Code-point lexicographic `≤` on character lists: Python's default
string ordering, used by `list.sort()` on scope names. -/
def lexLe : List Char → List Char → Bool
  | [], _ => true
  | _ :: _, [] => false
  | a :: as, b :: bs =>
    if a.toNat < b.toNat then true
    else if b.toNat < a.toNat then false
    else lexLe as bs

/-- Python `≤` on strings (code-point lexicographic). -/
def strLeB (a b : String) : Bool := lexLe a.toList b.toList

/-- Stable insertion of one element into a list sorted by `le`: the
element goes in front of the first entry it is `le`-below-or-equal. -/
def pyOrderedInsert (le : String → String → Bool) (a : String) :
    List String → List String
  | [] => [a]
  | b :: l => if le a b then a :: b :: l else b :: pyOrderedInsert le a l

/-- Stable insertion sort: the model of Python's stable `list.sort()`
(any stable comparison sort computes the same list). -/
def pySort (le : String → String → Bool) : List String → List String
  | [] => []
  | a :: l => pyOrderedInsert le a (pySort le l)

/-- `name.lower().startswith('shared')`: the preferred-scope test. -/
def startsWithShared (s : String) : Bool :=
  List.isPrefixOf "shared".toList (pyLower s)

/-- A scope counts as manageable when `databricks secrets list-acls`
succeeds and its output contains the substring `MANAGE`.  `acl` maps a
scope name to that command's (success, output) pair. -/
def aclManageable (acl : String → Bool × String) (s : String) : Bool :=
  (acl s).1 && isSubChars "MANAGE".toList (acl s).2.toList

/-- Rank of the final sort key: `0` for preferred (`shared`-prefixed)
scopes, `1` otherwise. -/
def scopeRank (s : String) : Nat := if startsWithShared s then 0 else 1

/-- Tuple `≤` on the final sort keys
`(0 if s.lower().startswith('shared') else 1, s.lower())`. -/
def scopeKeyLeB (a b : String) : Bool :=
  Nat.blt (scopeRank a) (scopeRank b) ||
    (scopeRank a == scopeRank b && lexLe (pyLower a) (pyLower b))

/-- The second pass of `get_manageable_scopes_paginated` (deploy.py
lines 709-722): walk the regular scopes, break as soon as the cap is
reached, probe each remaining scope and append the manageable ones.
Returns the accumulated manageable list and the list of scopes actually
probed, in probe order. -/
def scope_pass2 (acl : String → Bool × String) (maxScopes : Nat) :
    List String → List String → List String × List String
  | [], acc => (acc, [])
  | s :: rest, acc =>
    if maxScopes ≤ acc.length then (acc, [])
    else
      let acc2 := if aclManageable acl s then acc ++ [s] else acc
      let r := scope_pass2 acl maxScopes rest acc2
      (r.1, s :: r.2)

/-- `DatabricksDeployer.get_manageable_scopes_paginated` (deploy.py
lines 649-735), given the parsed scope names and the ACL-probe oracle.
Returns the final manageable list and the full probe sequence.  The
first pass probes every scope whose lowered name starts with `shared`
and appends all manageable ones with no cap check; the second pass fills
remaining slots (if any) from the other scopes; the result is sorted
preferred-first.  The Python default for `maxScopes` is 20. -/
def get_manageable_scopes_paginated (allScopeNames : List String)
    (acl : String → Bool × String) (maxScopes : Nat) :
    List String × List String :=
  let sorted := pySort strLeB allScopeNames
  let sharedScopes := sorted.filter (fun name => startsWithShared name)
  let regularScopes := sorted.filter (fun name => !startsWithShared name)
  let pass1 := sharedScopes.filter (fun name => aclManageable acl name)
  let remaining : Int := (maxScopes : Int) - pass1.length
  if remaining > 0 then
    let r2 := scope_pass2 acl maxScopes regularScopes pass1
    (pySort scopeKeyLeB r2.1, sharedScopes ++ r2.2)
  else
    (pySort scopeKeyLeB pass1, sharedScopes)

/-! ## JSON extraction (`deploy.py` lines 201-243)

`extract_json_from_output` first feeds the whole output to
`json.loads`; on failure it strips the output, looks for the first `{`
(falling back to the first `[`), scans forward with a bracket stack that
is string- and escape-aware, and feeds the first balanced segment back
to `json.loads`; any failure yields `None`.

The `json` standard library is not part of the repository; `json_loads`
below models its documented behaviour on the JSON subset relevant here:
objects, arrays, strings with `\" \\ \/ \b \f \n \r \t` escapes (no
`\uXXXX`), integer numbers (no floats), `true`/`false`/`null`, with
`[ \t\n\r]` inter-token whitespace, rejecting control characters inside
strings (strict mode) and trailing non-whitespace. -/

/-- JSON values.  Numbers are restricted to integers and object fields
keep their textual order (and possible duplicates), as the claims never
involve floats or dict semantics. -/
inductive Json where
  | null
  | bool (b : Bool)
  | num (n : Int)
  | str (s : List Char)
  | arr (elems : List Json)
  | obj (fields : List (List Char × Json))

/-- Structural induction for `Json` that hands element-wise hypotheses
for the nested lists. -/
def Json.recAux {P : Json → Prop}
    (hnull : P .null) (hbool : ∀ b, P (.bool b))
    (hnum : ∀ n, P (.num n)) (hstr : ∀ s, P (.str s))
    (harr : ∀ es, (∀ e ∈ es, P e) → P (.arr es))
    (hobj : ∀ fs, (∀ kv ∈ fs, P kv.2) → P (.obj fs)) :
    ∀ j, P j
  | .null => hnull
  | .bool b => hbool b
  | .num n => hnum n
  | .str s => hstr s
  | .arr es => harr es (fun e he =>
      Json.recAux hnull hbool hnum hstr harr hobj e)
  | .obj fs => hobj fs (fun kv hkv =>
      Json.recAux hnull hbool hnum hstr harr hobj kv.2)
termination_by j => sizeOf j
decreasing_by
  · have := List.sizeOf_lt_of_mem he
    simp only [Json.arr.sizeOf_spec]
    omega
  · have h1 := List.sizeOf_lt_of_mem hkv
    rcases kv with ⟨k, v⟩
    simp only [Json.obj.sizeOf_spec, Prod.mk.sizeOf_spec] at h1 ⊢
    omega

/-- The decimal digit character for `d < 10`. -/
def digitChar (d : Nat) : Char := Char.ofNat (48 + d)

/-- Decimal digits of a natural number, most significant first. -/
def natChars (n : Nat) : List Char :=
  if n = 0 then ['0'] else ((Nat.digits 10 n).reverse.map digitChar)

/-- Decimal representation of an integer. -/
def intChars (n : Int) : List Char :=
  if n < 0 then '-' :: natChars n.natAbs else natChars n.toNat

/-- JSON string-body escaping: `"` and `\` get a backslash, everything
else is emitted verbatim. -/
def escapeChars : List Char → List Char
  | [] => []
  | c :: rest =>
    if c = '"' ∨ c = '\\' then '\\' :: c :: escapeChars rest
    else c :: escapeChars rest

/-- A serialized JSON string literal. -/
def serStr (s : List Char) : List Char := '"' :: (escapeChars s ++ ['"'])

mutual

/-- Canonical serialization of a JSON value (no whitespace). -/
def ser : Json → List Char
  | .null => String.toList "null"
  | .bool true => String.toList "true"
  | .bool false => String.toList "false"
  | .num n => intChars n
  | .str s => serStr s
  | .arr [] => ['[', ']']
  | .arr (e :: es) => '[' :: (ser e ++ serTailArr es ++ [']'])
  | .obj [] => ['{', '}']
  | .obj ((k, v) :: fs) =>
    '{' :: (serStr k ++ ':' :: ser v ++ serTailObj fs ++ ['}'])

/-- Serialization of the remaining array elements, each preceded by a
comma. -/
def serTailArr : List Json → List Char
  | [] => []
  | e :: es => ',' :: ser e ++ serTailArr es

/-- Serialization of the remaining object fields, each preceded by a
comma. -/
def serTailObj : List (List Char × Json) → List Char
  | [] => []
  | (k, v) :: fs => ',' :: serStr k ++ ':' :: ser v ++ serTailObj fs

end

/-- Whether a value serializes with brackets around it: the claim's
"JSON object or array". -/
def isComposite : Json → Bool
  | .arr _ => true
  | .obj _ => true
  | _ => false

/-- No control characters (code points below 32): JSON strict mode
rejects raw control characters inside string literals, and the
serializer does not escape them, so round-tripping values needs this. -/
def noCtrl (s : List Char) : Prop := ∀ c ∈ s, 32 ≤ c.toNat

/-- JSON values whose strings (including object keys) are free of raw
control characters. -/
inductive Wf : Json → Prop where
  | null : Wf .null
  | bool : ∀ b, Wf (.bool b)
  | num : ∀ n, Wf (.num n)
  | str : ∀ s, noCtrl s → Wf (.str s)
  | arr : ∀ es, (∀ e ∈ es, Wf e) → Wf (.arr es)
  | obj : ∀ fs, (∀ kv ∈ fs, noCtrl kv.1) → (∀ kv ∈ fs, Wf kv.2) →
      Wf (.obj fs)

/-- JSON inter-token whitespace: space, tab, newline, carriage
return. -/
def jsonWs (c : Char) : Bool :=
  c == ' ' || c == '\t' || c == '\n' || c == '\r'

/-- Skip inter-token whitespace. -/
def skipWs (s : List Char) : List Char := s.dropWhile jsonWs

/-- The characters Python's `str.strip()` removes, restricted to ASCII:
space, tab, newline, carriage return, vertical tab, form feed. -/
def pySpace (c : Char) : Bool :=
  c == ' ' || c == '\t' || c == '\n' || c == '\r' ||
    c == Char.ofNat 11 || c == Char.ofNat 12

/-- Remove `pySpace`-characters from the right end. -/
def stripRight (l : List Char) : List Char :=
  (l.reverse.dropWhile pySpace).reverse

/-- Python's `output.strip()`. -/
def pyStrip (s : List Char) : List Char := stripRight (s.dropWhile pySpace)

/-- Decoding of a single-character JSON string escape. -/
def decodeEsc (c : Char) : Option Char :=
  if c = '"' then some '"'
  else if c = '\\' then some '\\'
  else if c = '/' then some '/'
  else if c = 'b' then some (Char.ofNat 8)
  else if c = 'f' then some (Char.ofNat 12)
  else if c = 'n' then some '\n'
  else if c = 'r' then some (Char.ofNat 13)
  else if c = 't' then some '\t'
  else none

/-- Parse a JSON string body after the opening quote, up to and past the
closing quote.  Returns the decoded characters and the remainder. -/
def parseStrBody : List Char → Option (List Char × List Char)
  | [] => none
  | c :: rest =>
    if c = '"' then some ([], rest)
    else if c = '\\' then
      match rest with
      | [] => none
      | e :: rest2 =>
        match decodeEsc e with
        | none => none
        | some d =>
          match parseStrBody rest2 with
          | none => none
          | some (cs, rem) => some (d :: cs, rem)
    else if c.toNat < 32 then none
    else
      match parseStrBody rest with
      | none => none
      | some (cs, rem) => some (c :: cs, rem)

/-- Match an exact sequence of characters, returning the remainder. -/
def stripPre (pat : List Char) (s : List Char) : Option (List Char) :=
  match pat, s with
  | [], s => some s
  | p :: ps, c :: cs => if c = p then stripPre ps cs else none
  | _ :: _, [] => none

/-- Numeric value of a digit character. -/
def digitVal (c : Char) : Nat := c.toNat - 48

/-- Parse a JSON integer (optional minus, digits, no leading zero). -/
def parseNum (s : List Char) : Option (Json × List Char) :=
  let neg : Bool := match s with
    | c :: _ => c == '-'
    | [] => false
  let s1 := if neg then s.drop 1 else s
  let ds := s1.takeWhile (fun c => c.isDigit)
  let rest := s1.dropWhile (fun c => c.isDigit)
  if ds.isEmpty then none
  else if 2 ≤ ds.length ∧ ds.take 1 = ['0'] then none
  else
    let m : Nat := ds.foldl (fun a c => 10 * a + digitVal c) 0
    some (.num (if neg then -(m : Int) else (m : Int)), rest)

mutual

/-- Fueled JSON value parser (the model of the `json` module's
recursive-descent scanner): skip whitespace, dispatch on the first
character. -/
def parseVal : Nat → List Char → Option (Json × List Char)
  | 0, _ => none
  | fuel + 1, s =>
    match skipWs s with
    | [] => none
    | c :: rest =>
      if c = '{' then
        match skipWs rest with
        | '}' :: rem => some (.obj [], rem)
        | '"' :: rem =>
          match parseStrBody rem with
          | none => none
          | some (k, rem2) =>
            match skipWs rem2 with
            | ':' :: rem3 =>
              match parseVal fuel rem3 with
              | none => none
              | some (v, rem4) => parseObjRest fuel [(k, v)] rem4
            | _ => none
        | _ => none
      else if c = '[' then
        match skipWs rest with
        | ']' :: rem => some (.arr [], rem)
        | _ =>
          match parseVal fuel rest with
          | none => none
          | some (v, rem) => parseArrRest fuel [v] rem
      else if c = '"' then
        match parseStrBody rest with
        | none => none
        | some (cs, rem) => some (.str cs, rem)
      else if c = 't' then
        match stripPre ['r', 'u', 'e'] rest with
        | some rem => some (.bool true, rem)
        | none => none
      else if c = 'f' then
        match stripPre ['a', 'l', 's', 'e'] rest with
        | some rem => some (.bool false, rem)
        | none => none
      else if c = 'n' then
        match stripPre ['u', 'l', 'l'] rest with
        | some rem => some (.null, rem)
        | none => none
      else if c = '-' ∨ c.isDigit then parseNum (c :: rest)
      else none

/-- After one array element: expect `]` to close or `,` followed by the
next element. -/
def parseArrRest : Nat → List Json → List Char → Option (Json × List Char)
  | 0, _, _ => none
  | fuel + 1, acc, s =>
    match skipWs s with
    | ']' :: rem => some (.arr acc, rem)
    | ',' :: rem =>
      match parseVal fuel rem with
      | none => none
      | some (v, rem2) => parseArrRest fuel (acc ++ [v]) rem2
    | _ => none

/-- After one object pair: expect `}` to close or `,` followed by the
next `"key": value` pair. -/
def parseObjRest : Nat → List (List Char × Json) → List Char →
    Option (Json × List Char)
  | 0, _, _ => none
  | fuel + 1, acc, s =>
    match skipWs s with
    | '}' :: rem => some (.obj acc, rem)
    | ',' :: rem =>
      match skipWs rem with
      | '"' :: rem2 =>
        match parseStrBody rem2 with
        | none => none
        | some (k, rem3) =>
          match skipWs rem3 with
          | ':' :: rem4 =>
            match parseVal fuel rem4 with
            | none => none
            | some (v, rem5) => parseObjRest fuel (acc ++ [(k, v)]) rem5
          | _ => none
      | _ => none
    | _ => none

end

/-- The model of `json.loads`: parse one value and require only
whitespace after it.  The fuel `length + 1` dominates the parser's
recursion depth, which consumes at least one character per level. -/
def json_loads (s : List Char) : Option Json :=
  match parseVal (s.length + 1) s with
  | none => none
  | some (v, rest) => if (skipWs rest).isEmpty then some v else none

/-- State of the bracket scan of `extract_json_from_output`
(deploy.py lines 221-239): the open-bracket stack, whether the scan is
inside a string literal, and whether the previous character was an
unconsumed escape backslash. -/
structure ScanState where
  stack : List Char
  inStr : Bool
  esc : Bool
deriving DecidableEq

/-- One iteration of the scan loop over character `c`, mirroring the
Python branches in order; the boolean reports whether this character
closed the outermost bracket (the loop's return point). -/
def scanStep (st : ScanState) (c : Char) : ScanState × Bool :=
  let esc2 := !st.esc && c == '\\'
  if !st.esc && c == '"' then
    ({ stack := st.stack, inStr := !st.inStr, esc := esc2 }, false)
  else if !st.inStr then
    if c == '{' || c == '[' then
      ({ st with stack := c :: st.stack, esc := esc2 }, false)
    else if c == '}' || c == ']' then
      match st.stack with
      | [] => ({ st with esc := esc2 }, false)
      | top :: rest =>
        if (c == '}' && top == '{') || (c == ']' && top == '[') then
          ({ st with stack := rest, esc := esc2 }, rest.isEmpty)
        else ({ st with esc := esc2 }, false)
    else ({ st with esc := esc2 }, false)
  else ({ st with esc := esc2 }, false)

/-- Index (relative to the scan start) at which the scan loop returns,
if it ever does. -/
def scanRes (st : ScanState) : List Char → Option Nat
  | [] => none
  | c :: cs =>
    match scanStep st c with
    | (st2, found) =>
      if found then some 0
      else
        match scanRes st2 cs with
        | none => none
        | some i => some (i + 1)

/-- Scan state after processing a chunk (used to compose chunks in
which the loop does not return). -/
def scanSt (st : ScanState) : List Char → ScanState
  | [] => st
  | c :: cs => scanSt (scanStep st c).1 cs

/-- Characters with no role in the scan loop when outside a string. -/
def plainChar (c : Char) : Bool :=
  !(c == '"' || c == '\\' || c == '{' || c == '[' || c == '}' || c == ']')

/-- `DatabricksDeployer.extract_json_from_output` (deploy.py lines
201-243) over the raw command output as a character list. -/
def extract_json_from_output (output : List Char) : Option Json :=
  if (pyStrip output).isEmpty then none
  else
    match json_loads output with
    | some v => some v
    | none =>
      let s := pyStrip output
      let start? :=
        match List.findIdx? (fun c => c == '{') s with
        | some i => some i
        | none => List.findIdx? (fun c => c == '[') s
      match start? with
      | none => none
      | some start =>
        match scanRes ⟨[], false, false⟩ (s.drop start) with
        | none => none
        | some irel => json_loads ((s.drop start).take (irel + 1))

/-- The remainder after a serialized number must not begin with another
digit (inside arrays and objects it begins with `,`, `]` or `}`). -/
def numDelimB : List Char → Bool
  | [] => true
  | c :: _ => !c.isDigit

/-! ## Order lemmas for the scope sorts -/

theorem lexLe_total : ∀ as bs : List Char, lexLe as bs = true ∨ lexLe bs as = true := by
  intro as
  induction as with
  | nil => intro bs; left; rfl
  | cons a as ih =>
    intro bs
    cases bs with
    | nil => right; rfl
    | cons b bs =>
      rcases Nat.lt_trichotomy a.toNat b.toNat with h | h | h
      · left; simp [lexLe, h]
      · rcases ih bs with h2 | h2
        · left; simp [lexLe, h, h2]
        · right; simp [lexLe, h.symm, h2]
      · right; simp [lexLe, h]

theorem lexLe_trans : ∀ as bs cs : List Char,
    lexLe as bs = true → lexLe bs cs = true → lexLe as cs = true := by
  intro as
  induction as with
  | nil => intro bs cs _ _; rfl
  | cons a as ih =>
    intro bs cs h1 h2
    cases bs with
    | nil => simp [lexLe] at h1
    | cons b bs =>
      cases cs with
      | nil => simp [lexLe] at h2
      | cons c cs =>
        simp only [lexLe] at h1 h2 ⊢
        by_cases hab : a.toNat < b.toNat
        · by_cases hbc : b.toNat < c.toNat
          · have hac : a.toNat < c.toNat := Nat.lt_trans hab hbc
            simp [hac]
          · by_cases hcb : c.toNat < b.toNat
            · simp [hbc, hcb] at h2
            · have hac : a.toNat < c.toNat := by omega
              simp [hac]
        · by_cases hba : b.toNat < a.toNat
          · simp [hab, hba] at h1
          · by_cases hbc : b.toNat < c.toNat
            · have hac : a.toNat < c.toNat := by omega
              simp [hac]
            · by_cases hcb : c.toNat < b.toNat
              · simp [hbc, hcb] at h2
              · have h1' : lexLe as bs = true := by simpa [hab, hba] using h1
                have h2' : lexLe bs cs = true := by simpa [hbc, hcb] using h2
                have hac : ¬ a.toNat < c.toNat := by omega
                have hca : ¬ c.toNat < a.toNat := by omega
                simp [hac, hca, ih bs cs h1' h2']

theorem scopeKeyLeB_iff (a b : String) :
    scopeKeyLeB a b = true ↔
      (scopeRank a < scopeRank b ∨
        (scopeRank a = scopeRank b ∧ lexLe (pyLower a) (pyLower b) = true)) := by
  simp [scopeKeyLeB, Nat.blt_eq]

theorem scopeKeyLeB_trans {a b c : String} (h1 : scopeKeyLeB a b = true)
    (h2 : scopeKeyLeB b c = true) : scopeKeyLeB a c = true := by
  rw [scopeKeyLeB_iff] at h1 h2 ⊢
  rcases h1 with h1 | ⟨h1, h1l⟩ <;> rcases h2 with h2 | ⟨h2, h2l⟩
  · exact Or.inl (h1.trans h2)
  · exact Or.inl (h2 ▸ h1)
  · exact Or.inl (h1 ▸ h2)
  · exact Or.inr ⟨h1.trans h2, lexLe_trans _ _ _ h1l h2l⟩

theorem scopeKeyLeB_total (a b : String) :
    scopeKeyLeB a b = true ∨ scopeKeyLeB b a = true := by
  rcases Nat.lt_trichotomy (scopeRank a) (scopeRank b) with h | h | h
  · left
    simp [scopeKeyLeB, Nat.blt_eq, h]
  · rcases lexLe_total (pyLower a) (pyLower b) with h2 | h2
    · left
      simp [scopeKeyLeB, h, h2]
    · right
      simp [scopeKeyLeB, h.symm, h2]
  · right
    simp [scopeKeyLeB, Nat.blt_eq, h]

theorem scopeKeyLeB_shared {a b : String} (h : scopeKeyLeB a b = true)
    (hb : startsWithShared b = true) : startsWithShared a = true := by
  have hrb : scopeRank b = 0 := by simp [scopeRank, hb]
  by_cases ha : startsWithShared a
  · exact ha
  · have hra : scopeRank a = 1 := by simp [scopeRank, ha]
    rw [scopeKeyLeB, hra, hrb] at h
    simp [Nat.blt_eq] at h

theorem mem_pyOrderedInsert (le : String → String → Bool) (a x : String) :
    ∀ l : List String, x ∈ pyOrderedInsert le a l ↔ x = a ∨ x ∈ l := by
  intro l
  induction l with
  | nil => simp [pyOrderedInsert]
  | cons b l ih =>
    by_cases h : le a b = true
    · simp [pyOrderedInsert, h]
    · rw [Bool.not_eq_true] at h
      simp only [pyOrderedInsert, h, Bool.false_eq_true, if_false,
        List.mem_cons, ih]
      tauto

theorem pairwise_pyOrderedInsert (le : String → String → Bool)
    (htot : ∀ x y, le x y = true ∨ le y x = true)
    (htrans : ∀ x y z, le x y = true → le y z = true → le x z = true)
    (a : String) :
    ∀ l : List String, l.Pairwise (fun x y => le x y = true) →
      (pyOrderedInsert le a l).Pairwise (fun x y => le x y = true) := by
  intro l
  induction l with
  | nil => intro _; simp [pyOrderedInsert]
  | cons b l ih =>
    intro h
    rcases List.pairwise_cons.mp h with ⟨hb, htl⟩
    by_cases hab : le a b = true
    · rw [pyOrderedInsert, if_pos hab]
      refine List.pairwise_cons.mpr ⟨?_, h⟩
      intro y hy
      rcases List.mem_cons.mp hy with rfl | hy2
      · exact hab
      · exact htrans a b y hab (hb y hy2)
    · rw [pyOrderedInsert, if_neg hab]
      refine List.pairwise_cons.mpr ⟨?_, ih htl⟩
      intro y hy
      rcases (mem_pyOrderedInsert le a y l).mp hy with hy1 | hy2
      · subst hy1
        rcases htot y b with h2 | h2
        · exact absurd h2 hab
        · exact h2
      · exact hb y hy2

theorem pairwise_pySort (le : String → String → Bool)
    (htot : ∀ x y, le x y = true ∨ le y x = true)
    (htrans : ∀ x y z, le x y = true → le y z = true → le x z = true) :
    ∀ l : List String,
      (pySort le l).Pairwise (fun x y => le x y = true) := by
  intro l
  induction l with
  | nil => simp [pySort]
  | cons a l ih => exact pairwise_pyOrderedInsert le htot htrans a _ ih

theorem length_pyOrderedInsert (le : String → String → Bool) (a : String) :
    ∀ l : List String, (pyOrderedInsert le a l).length = l.length + 1 := by
  intro l
  induction l with
  | nil => rfl
  | cons b l ih =>
    by_cases h : le a b = true
    · simp [pyOrderedInsert, h]
    · rw [Bool.not_eq_true] at h
      simp [pyOrderedInsert, h, ih]

theorem length_pySort (le : String → String → Bool) :
    ∀ l : List String, (pySort le l).length = l.length := by
  intro l
  induction l with
  | nil => rfl
  | cons a l ih => simp [pySort, length_pyOrderedInsert, ih]

theorem split_of_shared_pairwise :
    ∀ l : List String,
      l.Pairwise (fun a b => scopeKeyLeB a b = true) →
      l = l.filter (fun s => startsWithShared s) ++
        l.filter (fun s => !startsWithShared s) := by
  intro l
  induction l with
  | nil => intro _; rfl
  | cons x xs ih =>
    intro h
    rcases List.pairwise_cons.mp h with ⟨hx, htl⟩
    by_cases hsx : startsWithShared x
    · simp only [List.filter_cons, hsx]
      simp only [Bool.not_true, List.cons_append]
      exact congrArg (x :: ·) (ih htl)
    · have hall : ∀ b ∈ xs, startsWithShared b = false := by
        intro b hb
        by_contra hc
        have hb2 : startsWithShared b = true := by
          cases hbs : startsWithShared b
          · exact absurd hbs hc
          · rfl
        exact hsx (scopeKeyLeB_shared (hx b hb) hb2)
      have h1 : xs.filter (fun s => startsWithShared s) = [] := by
        apply List.filter_eq_nil_iff.mpr
        intro b hb
        simp [hall b hb]
      have h2 : xs.filter (fun s => !startsWithShared s) = xs := by
        apply List.filter_eq_self.mpr
        intro b hb
        simp [hall b hb]
      have hsx2 : startsWithShared x = false := by
        cases hbs : startsWithShared x
        · rfl
        · exact absurd hbs hsx
      simp [List.filter_cons, hsx2, h1, h2]

theorem scope_pass2_probes_mem (acl : String → Bool × String)
    (maxScopes : Nat) :
    ∀ (l acc : List String), ∀ s ∈ (scope_pass2 acl maxScopes l acc).2, s ∈ l := by
  intro l
  induction l with
  | nil => intro acc s hs; simp [scope_pass2] at hs
  | cons x rest ih =>
    intro acc s hs
    simp only [scope_pass2] at hs
    by_cases hc : maxScopes ≤ acc.length
    · rw [if_pos hc] at hs
      simp at hs
    · rw [if_neg hc] at hs
      simp only [List.mem_cons] at hs
      rcases hs with hs | hs
      · exact hs ▸ List.mem_cons_self x rest
      · exact List.mem_cons_of_mem x (ih _ s hs)

theorem scope_pass2_len (acl : String → Bool × String) (maxScopes : Nat) :
    ∀ (l acc : List String),
      (scope_pass2 acl maxScopes l acc).1.length ≤ max maxScopes acc.length := by
  intro l
  induction l with
  | nil => intro acc; simp [scope_pass2]
  | cons x rest ih =>
    intro acc
    simp only [scope_pass2]
    by_cases hc : maxScopes ≤ acc.length
    · rw [if_pos hc]
      simp
    · rw [if_neg hc]
      simp only []
      have h2 := ih (if aclManageable acl x then acc ++ [x] else acc)
      have hlen : (if aclManageable acl x then acc ++ [x] else acc).length ≤ acc.length + 1 := by
        by_cases hm : aclManageable acl x <;> simp [hm]
      omega

/-! ## Claim theorems: scope discovery (C2) -/

/-- C2 counterexample: with `max_scopes = 20` and 21 secret scopes that
all carry the preferred `shared` prefix and are all manageable,
`get_manageable_scopes_paginated` returns all 21 scopes — more than the
configured cap — because the first (preferred) pass appends every
manageable preferred scope without consulting the cap. -/
theorem C2_scope_pagination_counterexample :
    (get_manageable_scopes_paginated
      ["shared01", "shared02", "shared03", "shared04", "shared05",
       "shared06", "shared07", "shared08", "shared09", "shared10",
       "shared11", "shared12", "shared13", "shared14", "shared15",
       "shared16", "shared17", "shared18", "shared19", "shared20",
       "shared21"]
      (fun _ => (true, "MANAGE")) 20).1.length = 21 ∧
    ¬ ((get_manageable_scopes_paginated
      ["shared01", "shared02", "shared03", "shared04", "shared05",
       "shared06", "shared07", "shared08", "shared09", "shared10",
       "shared11", "shared12", "shared13", "shared14", "shared15",
       "shared16", "shared17", "shared18", "shared19", "shared20",
       "shared21"]
      (fun _ => (true, "MANAGE")) 20).1.length ≤ 20) := by
  constructor
  · decide
  · decide

/-- C2 (amended): the discovery routine probes every preferred
(`shared`-prefixed) scope before any non-preferred one, lists preferred
scopes first in the result, and returns at most
`max max_scopes M*` scopes, where `M*` is the number of manageable
preferred scopes — the cap bounds only the non-preferred second pass,
so it is exceeded whenever more than `max_scopes` preferred scopes are
manageable. -/
theorem C2_scope_pagination_amended (allScopeNames : List String)
    (acl : String → Bool × String) (maxScopes : Nat) :
    (∃ t, (get_manageable_scopes_paginated allScopeNames acl maxScopes).2 =
        (pySort strLeB allScopeNames).filter
          (fun name => startsWithShared name) ++ t
      ∧ t.all (fun s => !startsWithShared s) = true)
    ∧ (get_manageable_scopes_paginated allScopeNames acl maxScopes).1.length ≤
        max maxScopes
          (((pySort strLeB allScopeNames).filter
              (fun name => startsWithShared name)).filter
            (fun name => aclManageable acl name)).length
    ∧ (get_manageable_scopes_paginated allScopeNames acl maxScopes).1 =
        (get_manageable_scopes_paginated allScopeNames acl maxScopes).1.filter
          (fun s => startsWithShared s)
        ++ (get_manageable_scopes_paginated allScopeNames acl maxScopes).1.filter
          (fun s => !startsWithShared s) := by
  have hsorted : ∀ l : List String,
      (pySort scopeKeyLeB l).Pairwise (fun a b => scopeKeyLeB a b = true) :=
    pairwise_pySort scopeKeyLeB scopeKeyLeB_total
      (fun _ _ _ => scopeKeyLeB_trans)
  simp only [get_manageable_scopes_paginated]
  by_cases hrem : ((maxScopes : Int) -
      (((((pySort strLeB allScopeNames).filter
        (fun name => startsWithShared name)).filter
          (fun name => aclManageable acl name)).length : Nat) : Int) > 0)
  · rw [if_pos hrem]
    refine ⟨⟨(scope_pass2 acl maxScopes
        ((pySort strLeB allScopeNames).filter
          (fun name => !startsWithShared name))
        (((pySort strLeB allScopeNames).filter
          (fun name => startsWithShared name)).filter
            (fun name => aclManageable acl name))).2, rfl, ?_⟩, ?_, ?_⟩
    · apply List.all_eq_true.mpr
      intro s hs
      have hmem := scope_pass2_probes_mem acl maxScopes _ _ s hs
      have := List.of_mem_filter hmem
      simpa using this
    · rw [length_pySort]
      exact scope_pass2_len acl maxScopes _ _
    · exact split_of_shared_pairwise _ (hsorted _)
  · rw [if_neg hrem]
    refine ⟨⟨[], by simp, by simp⟩, ?_, ?_⟩
    · rw [length_pySort]
      exact le_max_right _ _
    · exact split_of_shared_pairwise _ (hsorted _)

/-! ## Claim theorems: chat persistence (C3, C10) -/

/-- C3: the save/load round-trip fails on the messages the application
actually stores.  `handle_message` (app.py lines 131-150) appends
records with roles `user` and `assistant` and auto-saves them, but
`load_chat` rebuilds only roles `system`, `human` and `ai` and silently
drops everything else: saving the two-message conversation and loading
it back returns the name with an empty message list. -/
theorem C3_chat_roundtrip_bug :
    load_chat
      (save_chat emptyChatFs "20240101_000000" (some "Test Chat")
        [.dict "user" "Hello", .dict "assistant" "Hi there!"]
        "2024-01-01T00:00:00")
      "20240101_000000" = (some "Test Chat", []) := by decide

/-- C10: loading a chat id with no stored file returns `(None, [])`
(and cannot raise — the embedding is a total function), and deleting it
leaves the stored files untouched. -/
theorem C10_missing_chat_file (fs : ChatFs) (chat_id : String)
    (h : fs chat_id = none) :
    load_chat fs chat_id = (none, []) ∧ delete_chat fs chat_id = fs := by
  constructor
  · simp [load_chat, h]
  · simp [delete_chat, h]

/-- C10 witness: the theorem applied to the empty chat directory. -/
theorem C10_missing_chat_file_witness :
    load_chat emptyChatFs "20240101_000000" = (none, []) ∧
    delete_chat emptyChatFs "20240101_000000" = emptyChatFs :=
  C10_missing_chat_file emptyChatFs "20240101_000000" rfl

/-! ## Claim theorems: deploy CLI exit code (C5) -/

/-- C5 counterexample: running the `deploy` subcommand when the
operation's success boolean is `false` still exits with code 0 — `main`
never inspects the returned boolean and never calls `sys.exit`. -/
theorem C5_exit_code_counterexample :
    (main_dispatch .deploy (fun _ => false)).1 = false ∧
    (main_dispatch .deploy (fun _ => false)).2 = 0 ∧
    (main_dispatch .deploy (fun _ => false)).2 ≠ 1 := by decide

/-- C5 (amended): for every subcommand and every outcome of the invoked
operation, the deploy tool's process exit code is 0; the success
boolean only affects console output. -/
theorem C5_exit_code_amended (cmd : DeployCommand)
    (opSuccess : DeployCommand → Bool) :
    (main_dispatch cmd opSuccess).2 = 0 := by
  cases cmd <;> rfl

/-! ## Claim theorems: error classification (C6) -/

/-- C6: `display_friendly_error` classifies every error message into
exactly the first category (in the fixed priority order limit-reached,
permission, not-found, invalid-request, generic) whose substring
heuristic matches, and attaches exactly the canned suggestions of that
category; the four specific categories have non-empty suggestion lists
and `generic` has none. -/
theorem C6_error_classification (msg : String) :
    display_friendly_error msg =
      (firstMatchingCategory msg, cannedSuggestions (firstMatchingCategory msg))
    ∧ cannedSuggestions .generic = []
    ∧ cannedSuggestions .limitReached ≠ []
    ∧ cannedSuggestions .permission ≠ []
    ∧ cannedSuggestions .notFound ≠ []
    ∧ cannedSuggestions .invalidRequest ≠ [] := by
  refine ⟨?_, by decide, by decide, by decide, by decide, by decide⟩
  simp only [firstMatchingCategory, categoryOrder, List.find?, categoryMatches]
  by_cases h1 : (containsLower msg "max limit" && containsLower msg "scope") = true
  · simp [display_friendly_error, h1, cannedSuggestions]
  · rw [Bool.not_eq_true] at h1
    by_cases h2 : (containsLower msg "permission" || containsLower msg "access") = true
    · simp [display_friendly_error, h1, h2, cannedSuggestions]
    · rw [Bool.not_eq_true] at h2
      by_cases h3 : containsLower msg "not found" = true
      · simp [display_friendly_error, h1, h2, h3, cannedSuggestions]
      · rw [Bool.not_eq_true] at h3
        by_cases h4 : (containsLower msg "invalid" || containsLower msg "bad request") = true
        · simp [display_friendly_error, h1, h2, h3, h4, cannedSuggestions]
        · rw [Bool.not_eq_true] at h4
          simp [display_friendly_error, h1, h2, h3, h4, cannedSuggestions]

/-! ## Claim theorems: agent service (C4, C8, C9) -/

/-- C4: an invalid temperature makes the constructor raise `ValueError`
with no object built (so `create_agent` is never reached), and makes
`update_configuration` raise with the object completely unchanged —
temperature is validated before any field is assigned. -/
theorem C4_temperature_rejected (t : PyTemp) (h : invalidTemp t) :
    (∀ mn sp key, ∃ e, AgentService_init mn t sp key = .error e)
    ∧ (∀ st mn sp, ∃ e,
        update_configuration st mn (some t) sp = (st, some e)) := by
  have hv : ∃ e, validate_temperature t = .error e := by
    rcases h with h | ⟨q, hq, hout⟩
    · exact ⟨_, by rw [h]; rfl⟩
    · refine ⟨"Temperature must be between 0 and 1", ?_⟩
      rw [hq]
      simp [validate_temperature, if_pos hout]
  rcases hv with ⟨e, he⟩
  constructor
  · intro mn sp key
    exact ⟨e, by simp [AgentService_init, he]⟩
  · intro st mn sp
    exact ⟨e, by simp [update_configuration, he]⟩

/-- C4 witness: the theorem applied to temperature 2 (a number above
the interval). -/
theorem C4_temperature_rejected_witness :
    (∃ e, AgentService_init "gpt-4" (.num 2) "prompt" "sk" = .error e)
    ∧ (∃ e, update_configuration sampleAgentState none (some (.num 2)) none =
        (sampleAgentState, some e)) := by
  have h := C4_temperature_rejected (.num 2)
    (Or.inr ⟨2, rfl, Or.inr (by norm_num)⟩)
  exact ⟨h.1 "gpt-4" "prompt" "sk", h.2 sampleAgentState none none⟩

/-- C8: a configuration update that does not raise tears the agent and
memory down and rebuilds them: the state after the call carries a new
generation (`builds` is incremented, and `llm`, `memory` and
`agent_executor` all carry the new generation, which no object built
before the call can carry), and the fresh conversation memory is
empty. -/
theorem C8_update_rebuilds_agent (st : AgentState) (mn : Option String)
    (t : Option PyTemp) (sp : Option String)
    (hok : (update_configuration st mn t sp).2 = none) :
    (update_configuration st mn t sp).1.builds = st.builds + 1
    ∧ (update_configuration st mn t sp).1.memory = some (st.builds + 1, [])
    ∧ (update_configuration st mn t sp).1.agent_executor = some (st.builds + 1)
    ∧ (update_configuration st mn t sp).1.llm = some (st.builds + 1) := by
  cases t with
  | none =>
    cases mn <;> cases sp <;>
      simp [update_configuration, create_agent]
  | some tv =>
    cases hval : validate_temperature tv with
    | error e =>
      exfalso
      simp [update_configuration, hval] at hok
    | ok u =>
      cases mn <;> cases sp <;>
        simp [update_configuration, hval, create_agent]

/-- C8 witness: the theorem applied to a full valid reconfiguration of
the sample object. -/
theorem C8_update_rebuilds_agent_witness :
    (update_configuration sampleAgentState (some "gpt-4") (some (.num 0))
        (some "New prompt")).1.builds = sampleAgentState.builds + 1
    ∧ (update_configuration sampleAgentState (some "gpt-4") (some (.num 0))
        (some "New prompt")).1.memory = some (sampleAgentState.builds + 1, [])
    ∧ (update_configuration sampleAgentState (some "gpt-4") (some (.num 0))
        (some "New prompt")).1.agent_executor = some (sampleAgentState.builds + 1)
    ∧ (update_configuration sampleAgentState (some "gpt-4") (some (.num 0))
        (some "New prompt")).1.llm = some (sampleAgentState.builds + 1) :=
  C8_update_rebuilds_agent sampleAgentState (some "gpt-4") (some (.num 0))
    (some "New prompt") (by decide)

/-- C9: when the underlying library raises on a non-empty input,
`get_response` re-raises the very same exception (`raise e`), calls the
library exactly once (no retry, no backoff), and leaves the
configuration fields untouched. -/
theorem C9_get_response_propagates {ε : Type} (st : AgentState)
    (input : String) (e : ε) (invoke : String → Except ε AgentResponse)
    (hne : input ≠ "") (hfail : invoke input = .error e) :
    (get_response st input invoke).2.1 = .raised e
    ∧ (get_response st input invoke).2.2 = [input]
    ∧ (get_response st input invoke).1.model_name = st.model_name
    ∧ (get_response st input invoke).1.temperature = st.temperature
    ∧ (get_response st input invoke).1.system_prompt = st.system_prompt := by
  by_cases hae : st.agent_executor = none <;>
    simp [get_response, hne, hfail, hae, create_agent]

/-- C9 witness: the theorem applied to a concrete failing library
call. -/
theorem C9_get_response_propagates_witness :
    (get_response sampleAgentState "Hello"
        (fun _ => Except.error "RateLimitError")).2.1 =
      .raised "RateLimitError"
    ∧ (get_response sampleAgentState "Hello"
        (fun _ => Except.error "RateLimitError")).2.2 = ["Hello"]
    ∧ (get_response sampleAgentState "Hello"
        (fun _ => Except.error "RateLimitError")).1.model_name =
      sampleAgentState.model_name
    ∧ (get_response sampleAgentState "Hello"
        (fun _ => Except.error "RateLimitError")).1.temperature =
      sampleAgentState.temperature
    ∧ (get_response sampleAgentState "Hello"
        (fun _ => Except.error "RateLimitError")).1.system_prompt =
      sampleAgentState.system_prompt :=
  C9_get_response_propagates sampleAgentState "Hello" "RateLimitError"
    (fun _ => Except.error "RateLimitError") (by decide) rfl

/-! ## Claim theorems: OpenAI key resolution (C7) -/

/-- C7: `get_openai_api_key` prefers the platform secret store — when
it yields a key, that key is returned and the environment is ignored;
the `OPENAI_API_KEY` environment variable is consulted only when the
secret store yields no key; and a `ValueError` is raised exactly when
neither source provides a key. -/
theorem C7_api_key_resolution (secret : SecretOutcome) (env : Option String) :
    (secretNoKey secret = false →
      ∃ v, secret = .returns v ∧ get_openai_api_key secret env = .ok v)
    ∧ (secretNoKey secret = true → pyFalsyStr env = false →
      ∃ v, env = some v ∧ get_openai_api_key secret env = .ok v)
    ∧ ((∃ e, get_openai_api_key secret env = .error e) ↔
      (secretNoKey secret = true ∧ pyFalsyStr env = true)) := by
  cases secret with
  | raises =>
    cases env with
    | none => simp [secretNoKey, pyFalsyStr, get_openai_api_key]
    | some v =>
      by_cases hv : v = "" <;>
        simp [secretNoKey, pyFalsyStr, get_openai_api_key, hv]
  | returns w =>
    by_cases hw : w = ""
    · cases env with
      | none => simp [secretNoKey, pyFalsyStr, get_openai_api_key, hw]
      | some v =>
        by_cases hv : v = "" <;>
          simp [secretNoKey, pyFalsyStr, get_openai_api_key, hw, hv]
    · cases env with
      | none => simp [secretNoKey, pyFalsyStr, get_openai_api_key, hw]
      | some v =>
        by_cases hv : v = "" <;>
          simp [secretNoKey, pyFalsyStr, get_openai_api_key, hw, hv]

/-- C7 witness: the secret store wins when it has a key, even with the
environment variable also set. -/
theorem C7_api_key_resolution_witness :
    ∃ v, SecretOutcome.returns "sk-secret" = .returns v ∧
      get_openai_api_key (.returns "sk-secret") (some "sk-env") = .ok v :=
  (C7_api_key_resolution (.returns "sk-secret") (some "sk-env")).1 (by decide)

/-! ## List utilities for the JSON extraction proofs -/

theorem dropWhile_append_all {p : Char → Bool} {xs ys : List Char}
    (h : ∀ c ∈ xs, p c = true) :
    List.dropWhile p (xs ++ ys) = List.dropWhile p ys := by
  rw [List.dropWhile_append]
  have h2 : List.dropWhile p xs = [] := List.dropWhile_eq_nil_iff.mpr h
  simp [h2]

theorem dropWhile_cons_false {p : Char → Bool} {c : Char} {cs : List Char}
    (h : p c = false) : List.dropWhile p (c :: cs) = c :: cs := by
  simp [List.dropWhile_cons, h]

theorem dropWhile_append_headFalse {p : Char → Bool} {pre cs : List Char}
    {c : Char} (h : p c = false) :
    List.dropWhile p (pre ++ c :: cs) = List.dropWhile p pre ++ c :: cs := by
  rw [List.dropWhile_append]
  by_cases he : (List.dropWhile p pre).isEmpty
  · have h2 : List.dropWhile p pre = [] := by
      cases hd : List.dropWhile p pre
      · rfl
      · rw [hd] at he; simp at he
    rw [if_pos (by rw [h2]; rfl), h2, dropWhile_cons_false h]
    rfl
  · rw [if_neg he]

theorem mem_of_mem_dropWhile {p : Char → Bool} {c : Char} {l : List Char}
    (h : c ∈ List.dropWhile p l) : c ∈ l :=
  (List.dropWhile_sublist p).mem h

theorem stripRight_append {X post : List Char} {d : Char}
    (hd : pySpace d = false) :
    stripRight ((X ++ [d]) ++ post) = (X ++ [d]) ++ stripRight post := by
  unfold stripRight
  have h1 : ((X ++ [d]) ++ post).reverse = post.reverse ++ d :: X.reverse := by
    simp
  rw [h1, dropWhile_append_headFalse hd]
  simp

theorem mem_stripRight {c : Char} {l : List Char}
    (h : c ∈ stripRight l) : c ∈ l := by
  unfold stripRight at h
  rw [List.mem_reverse] at h
  have := mem_of_mem_dropWhile h
  rwa [List.mem_reverse] at this

theorem mem_pyStrip {c : Char} {l : List Char} (h : c ∈ pyStrip l) : c ∈ l :=
  mem_of_mem_dropWhile (mem_stripRight h)

theorem pyStrip_decomp {pre mid post : List Char} {c d : Char}
    (hc : pySpace c = false) (hd : pySpace d = false) :
    pyStrip (pre ++ (c :: (mid ++ [d])) ++ post) =
      List.dropWhile pySpace pre ++ (c :: (mid ++ [d])) ++ stripRight post := by
  unfold pyStrip
  have h1 : pre ++ (c :: (mid ++ [d])) ++ post =
      pre ++ c :: (mid ++ [d] ++ post) := by
    simp [List.append_assoc]
  rw [h1, dropWhile_append_headFalse hc]
  have h2 : List.dropWhile pySpace pre ++ c :: (mid ++ [d] ++ post) =
      ((List.dropWhile pySpace pre ++ c :: mid) ++ [d]) ++ post := by
    simp [List.append_assoc]
  rw [h2, stripRight_append hd]
  simp [List.append_assoc]

theorem pyStrip_all_space {t : List Char} (h : ∀ c ∈ t, pySpace c = true) :
    pyStrip t = [] := by
  unfold pyStrip stripRight
  rw [List.dropWhile_eq_nil_iff.mpr h]
  rfl

theorem findIdx?_none_of_all {p : Char → Bool} :
    ∀ (l : List Char) (i : Nat), (∀ c ∈ l, p c = false) →
      List.findIdx? p l i = none := by
  intro l
  induction l with
  | nil => intro i _; rfl
  | cons c cs ih =>
    intro i h
    rw [List.findIdx?]
    rw [h c (List.mem_cons_self c cs)]
    exact ih (i + 1) (fun x hx => h x (List.mem_cons_of_mem c hx))

theorem findIdx?_first {p : Char → Bool} :
    ∀ (pre : List Char) (i : Nat) (x : Char) (rest : List Char),
      (∀ c ∈ pre, p c = false) → p x = true →
      List.findIdx? p (pre ++ x :: rest) i = some (i + pre.length) := by
  intro pre
  induction pre with
  | nil =>
    intro i x rest _ hx
    rw [List.nil_append, List.findIdx?, hx]
    simp
  | cons c cs ih =>
    intro i x rest h hx
    rw [List.cons_append, List.findIdx?]
    rw [h c (List.mem_cons_self c cs)]
    rw [ih (i + 1) x rest (fun y hy => h y (List.mem_cons_of_mem c hy)) hx]
    simp
    omega

/-! ## Bracket-scanner lemmas -/

theorem scanSt_append (st : ScanState) :
    ∀ xs ys : List Char, scanSt st (xs ++ ys) = scanSt (scanSt st xs) ys := by
  intro xs
  induction xs generalizing st with
  | nil => intro ys; rfl
  | cons c cs ih =>
    intro ys
    simp only [List.cons_append, scanSt, List.append_eq, ih]

theorem scanRes_append (st : ScanState) :
    ∀ xs ys : List Char,
      scanRes st (xs ++ ys) =
        match scanRes st xs with
        | some i => some i
        | none => Option.map (· + xs.length) (scanRes (scanSt st xs) ys) := by
  intro xs
  induction xs generalizing st with
  | nil =>
    intro ys
    simp only [List.nil_append, scanRes, scanSt, List.length_nil]
    cases scanRes st ys <;> simp
  | cons c cs ih =>
    intro ys
    rcases hstep : scanStep st c with ⟨st2, found⟩
    simp only [List.cons_append, scanRes, hstep, scanSt, List.append_eq]
    cases found with
    | true => simp
    | false =>
      simp only [if_false, Bool.false_eq_true]
      rw [ih st2 ys]
      cases h2 : scanRes st2 cs with
      | some i => simp
      | none =>
        cases h3 : scanRes (scanSt st2 cs) ys with
        | none => simp
        | some j =>
          simp only [Option.map_some, List.length_cons]
          show some (j + cs.length + 1) = some (j + (cs.length + 1))
          exact congrArg some (by omega)

theorem scanStep_plain {st : ScanState} {c : Char} (hc : plainChar c = true)
    (hin : st.inStr = false) (hesc : st.esc = false) :
    scanStep st c = (st, false) := by
  rcases st with ⟨stack, inStr, esc⟩
  simp only at hin hesc
  subst hin
  subst hesc
  simp only [plainChar, Bool.not_eq_true', Bool.or_eq_false_iff] at hc
  obtain ⟨⟨⟨⟨⟨h1, h2⟩, h3⟩, h4⟩, h5⟩, h6⟩ := hc
  simp [scanStep, h1, h2, h3, h4, h5, h6]

theorem scan_plain_chunk :
    ∀ (cs : List Char) (st : ScanState),
      (∀ c ∈ cs, plainChar c = true) → st.inStr = false → st.esc = false →
      scanSt st cs = st ∧ scanRes st cs = none := by
  intro cs
  induction cs with
  | nil => intro st _ _ _; exact ⟨rfl, rfl⟩
  | cons c cs ih =>
    intro st h hin hesc
    have hstep := scanStep_plain (h c (List.mem_cons_self c cs)) hin hesc
    have hrest := ih st (fun x hx => h x (List.mem_cons_of_mem c hx)) hin hesc
    constructor
    · simp only [scanSt, hstep, hrest.1]
    · simp only [scanRes, hstep, if_false, hrest.2, Bool.false_eq_true]

theorem scan_escape_chunk :
    ∀ (s : List Char) (stack : List Char),
      scanSt ⟨stack, true, false⟩ (escapeChars s) = ⟨stack, true, false⟩ ∧
      scanRes ⟨stack, true, false⟩ (escapeChars s) = none := by
  intro s
  induction s with
  | nil => intro stack; exact ⟨rfl, rfl⟩
  | cons c cs ih =>
    intro stack
    by_cases hc : c = '"' ∨ c = '\\'
    · have hesc : escapeChars (c :: cs) = '\\' :: c :: escapeChars cs := by
        simp [escapeChars, hc]
      have hstep1 : scanStep ⟨stack, true, false⟩ '\\' =
          (⟨stack, true, true⟩, false) := by rfl
      have hstep2 : scanStep ⟨stack, true, true⟩ c = (⟨stack, true, false⟩, false) := by
        rcases hc with rfl | rfl <;> rfl
      constructor
      · simp only [hesc, scanSt, hstep1, hstep2, (ih stack).1]
      · simp only [hesc, scanRes, hstep1, hstep2, if_false, (ih stack).2,
          Bool.false_eq_true]
    · push_neg at hc
      have hesc : escapeChars (c :: cs) = c :: escapeChars cs := by
        simp [escapeChars, hc.1, hc.2]
      have hq : (c == '"') = false := by
        cases hbe : c == '"'
        · rfl
        · exact absurd (eq_of_beq hbe) hc.1
      have hb : (c == '\\') = false := by
        cases hbe : c == '\\'
        · rfl
        · exact absurd (eq_of_beq hbe) hc.2
      have hstep : scanStep ⟨stack, true, false⟩ c = (⟨stack, true, false⟩, false) := by
        simp [scanStep, hq, hb]
      constructor
      · simp only [hesc, scanSt, hstep, (ih stack).1]
      · simp only [hesc, scanRes, hstep, if_false, (ih stack).2,
          Bool.false_eq_true]

theorem scan_serStr (k : List Char) (stack : List Char) :
    scanSt ⟨stack, false, false⟩ (serStr k) = ⟨stack, false, false⟩ ∧
    scanRes ⟨stack, false, false⟩ (serStr k) = none := by
  have hopen : scanStep ⟨stack, false, false⟩ '"' =
      (⟨stack, true, false⟩, false) := by rfl
  have hclose : scanStep ⟨stack, true, false⟩ '"' =
      (⟨stack, false, false⟩, false) := by rfl
  have hesc := scan_escape_chunk k stack
  constructor
  · simp only [serStr, scanSt, hopen, scanSt_append, hesc.1]
    simp [scanSt, hclose]
  · have h1 : scanRes ⟨stack, true, false⟩ (escapeChars k ++ ['"']) = none := by
      rw [scanRes_append]
      simp only [hesc.2, hesc.1]
      simp [scanRes, hclose]
    simp [serStr, scanRes, hopen, h1]

/-! ## Digit and serialization-shape lemmas -/

theorem digitChar_facts {d : Nat} (hd : d < 10) :
    (digitChar d).isDigit = true ∧ plainChar (digitChar d) = true ∧
    jsonWs (digitChar d) = false ∧ (digitChar d).toNat = 48 + d ∧
    ((digitChar d) = '0' ↔ d = 0) := by
  interval_cases d <;> exact ⟨by decide, by decide, by decide, by decide, by decide⟩

theorem ne_of_isDigit {c x : Char} (h : c.isDigit = true)
    (hx : x.isDigit = false) : ¬ (c = x) := by
  intro he
  subst he
  simp [h] at hx

theorem jsonWs_false_of_isDigit {c : Char} (h : c.isDigit = true) :
    jsonWs c = false := by
  have h1 : (c == ' ') = false := by
    cases hbe : c == ' '
    · rfl
    · exact absurd (eq_of_beq hbe) (ne_of_isDigit h (by decide))
  have h2 : (c == '\t') = false := by
    cases hbe : c == '\t'
    · rfl
    · exact absurd (eq_of_beq hbe) (ne_of_isDigit h (by decide))
  have h3 : (c == '\n') = false := by
    cases hbe : c == '\n'
    · rfl
    · exact absurd (eq_of_beq hbe) (ne_of_isDigit h (by decide))
  have h4 : (c == '\r') = false := by
    cases hbe : c == '\r'
    · rfl
    · exact absurd (eq_of_beq hbe) (ne_of_isDigit h (by decide))
  simp [jsonWs, h1, h2, h3, h4]

theorem plainChar_of_isDigit {c : Char} (h : c.isDigit = true) :
    plainChar c = true := by
  have hne : ∀ x : Char, x.isDigit = false → (c == x) = false := by
    intro x hx
    cases hbe : c == x
    · rfl
    · exact absurd (eq_of_beq hbe) (ne_of_isDigit h hx)
  simp [plainChar, hne '"' (by decide), hne '\\' (by decide),
    hne '{' (by decide), hne '[' (by decide), hne '}' (by decide),
    hne ']' (by decide)]

theorem natChars_ne_nil (n : Nat) : natChars n ≠ [] := by
  unfold natChars
  by_cases h : n = 0
  · simp [h]
  · rw [if_neg h]
    simp [Nat.digits_ne_nil_iff_ne_zero.mpr h]

theorem natChars_all_digits (n : Nat) :
    ∀ c ∈ natChars n, c.isDigit = true := by
  intro c hc
  unfold natChars at hc
  by_cases h : n = 0
  · rw [if_pos h] at hc
    simp at hc
    subst hc
    decide
  · rw [if_neg h] at hc
    rw [List.mem_map] at hc
    obtain ⟨d, hd, rfl⟩ := hc
    rw [List.mem_reverse] at hd
    exact (digitChar_facts (Nat.digits_lt_base (by norm_num) hd)).1

theorem natChars_no_leading_zero {n : Nat} {c : Char} {cs : List Char}
    (h : natChars n = '0' :: c :: cs) : False := by
  unfold natChars at h
  by_cases hn : n = 0
  · rw [if_pos hn] at h
    simp at h
  · rw [if_neg hn] at h
    cases hrev : (Nat.digits 10 n).reverse with
    | nil => rw [hrev] at h; simp at h
    | cons d rest =>
      rw [hrev] at h
      simp only [List.map_cons, List.cons.injEq] at h
      have hd10 : d < 10 := by
        refine @Nat.digits_lt_base 10 n d (by norm_num) ?_
        rw [← List.mem_reverse, hrev]
        exact List.mem_cons_self d rest
      have hd0 : d = 0 := (digitChar_facts hd10).2.2.2.2.mp h.1
      have hds : Nat.digits 10 n = rest.reverse ++ [d] := by
        rw [← List.reverse_reverse (Nat.digits 10 n), hrev]
        simp
      have hlast := Nat.getLast_digit_ne_zero 10 hn
      rw [List.getLast_congr _ _ hds] at hlast
      rw [List.getLast_append_singleton] at hlast
      exact hlast hd0

theorem intChars_plain (n : Int) : ∀ c ∈ intChars n, plainChar c = true := by
  intro c hc
  unfold intChars at hc
  by_cases h : n < 0
  · rw [if_pos h] at hc
    rcases List.mem_cons.mp hc with rfl | hc2
    · decide
    · exact plainChar_of_isDigit (natChars_all_digits _ c hc2)
  · rw [if_neg h] at hc
    exact plainChar_of_isDigit (natChars_all_digits _ c hc)

/-! ## Scanning a serialized JSON value -/

theorem scanRes_cons_notfound {st st2 : ScanState} {c : Char} {cs : List Char}
    (h : scanStep st c = (st2, false)) :
    scanRes st (c :: cs) =
      match scanRes st2 cs with
      | none => none
      | some i => some (i + 1) := by
  simp [scanRes, h]

theorem scanRes_chunk_skip {st : ScanState} {xs ys : List Char}
    (h1 : scanSt st xs = st) (h2 : scanRes st xs = none) :
    scanRes st (xs ++ ys) = Option.map (· + xs.length) (scanRes st ys) := by
  rw [scanRes_append, h2, h1]

theorem scan_chunk_seq {st : ScanState} {xs ys : List Char}
    (hx1 : scanSt st xs = st) (hx2 : scanRes st xs = none)
    (hy1 : scanSt st ys = st) (hy2 : scanRes st ys = none) :
    scanSt st (xs ++ ys) = st ∧ scanRes st (xs ++ ys) = none := by
  constructor
  · rw [scanSt_append, hx1, hy1]
  · rw [scanRes_chunk_skip hx1 hx2, hy2]
    rfl

theorem scan_serTailArr (es : List Json)
    (hes : ∀ e ∈ es, ∀ stack : List Char,
      scanSt ⟨stack, false, false⟩ (ser e) = ⟨stack, false, false⟩ ∧
      (stack ≠ [] → scanRes ⟨stack, false, false⟩ (ser e) = none)) :
    ∀ stack : List Char, stack ≠ [] →
      scanSt ⟨stack, false, false⟩ (serTailArr es) = ⟨stack, false, false⟩ ∧
      scanRes ⟨stack, false, false⟩ (serTailArr es) = none := by
  induction es with
  | nil => intro stack _; exact ⟨rfl, rfl⟩
  | cons e es ih =>
    intro stack hne
    have hse := hes e (List.mem_cons_self e es) stack
    have hstep : scanStep ⟨stack, false, false⟩ ',' =
        (⟨stack, false, false⟩, false) := rfl
    have h1 : scanSt ⟨stack, false, false⟩ (',' :: ser e) =
        ⟨stack, false, false⟩ := by
      simp only [scanSt, hstep, hse.1]
    have h2 : scanRes ⟨stack, false, false⟩ (',' :: ser e) = none := by
      rw [scanRes_cons_notfound hstep, hse.2 hne]
    have hrest := ih (fun x hx => hes x (List.mem_cons_of_mem e hx)) stack hne
    show scanSt ⟨stack, false, false⟩ ((',' :: ser e) ++ serTailArr es) =
        ⟨stack, false, false⟩ ∧
      scanRes ⟨stack, false, false⟩ ((',' :: ser e) ++ serTailArr es) = none
    exact scan_chunk_seq h1 h2 hrest.1 hrest.2

theorem scanSt_cons (st : ScanState) (c : Char) (cs : List Char) :
    scanSt st (c :: cs) = scanSt (scanStep st c).1 cs := rfl

theorem scan_serTailObj (fs : List (List Char × Json))
    (hfs : ∀ kv ∈ fs, ∀ stack : List Char,
      scanSt ⟨stack, false, false⟩ (ser kv.2) = ⟨stack, false, false⟩ ∧
      (stack ≠ [] → scanRes ⟨stack, false, false⟩ (ser kv.2) = none)) :
    ∀ stack : List Char, stack ≠ [] →
      scanSt ⟨stack, false, false⟩ (serTailObj fs) = ⟨stack, false, false⟩ ∧
      scanRes ⟨stack, false, false⟩ (serTailObj fs) = none := by
  induction fs with
  | nil => intro stack _; exact ⟨rfl, rfl⟩
  | cons kv fs ih =>
    rcases kv with ⟨k, v⟩
    intro stack hne
    have heq : serTailObj ((k, v) :: fs) =
        ',' :: serStr k ++ ':' :: ser v ++ serTailObj fs := by
      simp only [serTailObj]
    have hsv := hfs (k, v) (List.mem_cons_self (k, v) fs) stack
    have hstr := scan_serStr k stack
    have hcomma : scanStep ⟨stack, false, false⟩ ',' =
        (⟨stack, false, false⟩, false) := rfl
    have hcolon : scanStep ⟨stack, false, false⟩ ':' =
        (⟨stack, false, false⟩, false) := rfl
    have h1 : scanSt ⟨stack, false, false⟩ (',' :: serStr k) =
        ⟨stack, false, false⟩ := by
      rw [scanSt_cons, hcomma]
      exact hstr.1
    have h2 : scanRes ⟨stack, false, false⟩ (',' :: serStr k) = none := by
      rw [scanRes_cons_notfound hcomma, hstr.2]
    have h3 : scanSt ⟨stack, false, false⟩ (':' :: ser v) =
        ⟨stack, false, false⟩ := by
      rw [scanSt_cons, hcolon]
      exact hsv.1
    have h4 : scanRes ⟨stack, false, false⟩ (':' :: ser v) = none := by
      rw [scanRes_cons_notfound hcolon, hsv.2 hne]
    have hrest := ih (fun x hx => hfs x (List.mem_cons_of_mem (k, v) hx)) stack hne
    have hab := scan_chunk_seq h1 h2 h3 h4
    have habc := scan_chunk_seq hab.1 hab.2 hrest.1 hrest.2
    rw [heq]
    exact habc

theorem scan_ser : ∀ v : Json, ∀ stack : List Char,
    scanSt ⟨stack, false, false⟩ (ser v) = ⟨stack, false, false⟩ ∧
    (stack ≠ [] → scanRes ⟨stack, false, false⟩ (ser v) = none) ∧
    scanRes ⟨[], false, false⟩ (ser v) =
      (if isComposite v then some ((ser v).length - 1) else none) := by
  refine Json.recAux ?_ ?_ ?_ ?_ ?_ ?_
  · intro stack
    have h := scan_plain_chunk (ser .null) ⟨stack, false, false⟩
      (by intro c hc; revert c hc; decide) rfl rfl
    have h0 := scan_plain_chunk (ser .null) ⟨[], false, false⟩
      (by intro c hc; revert c hc; decide) rfl rfl
    exact ⟨h.1, fun _ => h.2, by rw [h0.2]; rfl⟩
  · intro b stack
    cases b
    · have h := scan_plain_chunk (ser (.bool false)) ⟨stack, false, false⟩
        (by intro c hc; revert c hc; decide) rfl rfl
      have h0 := scan_plain_chunk (ser (.bool false)) ⟨[], false, false⟩
        (by intro c hc; revert c hc; decide) rfl rfl
      exact ⟨h.1, fun _ => h.2, by rw [h0.2]; rfl⟩
    · have h := scan_plain_chunk (ser (.bool true)) ⟨stack, false, false⟩
        (by intro c hc; revert c hc; decide) rfl rfl
      have h0 := scan_plain_chunk (ser (.bool true)) ⟨[], false, false⟩
        (by intro c hc; revert c hc; decide) rfl rfl
      exact ⟨h.1, fun _ => h.2, by rw [h0.2]; rfl⟩
  · intro n stack
    have h := scan_plain_chunk (ser (.num n)) ⟨stack, false, false⟩
      (intChars_plain n) rfl rfl
    have h0 := scan_plain_chunk (ser (.num n)) ⟨[], false, false⟩
      (intChars_plain n) rfl rfl
    exact ⟨h.1, fun _ => h.2, by rw [h0.2]; rfl⟩
  · intro s stack
    have heq : ser (Json.str s) = serStr s := rfl
    have h := scan_serStr s stack
    have h0 := scan_serStr s []
    exact ⟨by rw [heq]; exact h.1, fun _ => by rw [heq]; exact h.2,
      by rw [heq, h0.2]; rfl⟩
  · intro es hes stack
    cases es with
    | nil =>
      cases stack with
      | nil => exact ⟨rfl, fun h => absurd rfl h, rfl⟩
      | cons x xs => exact ⟨rfl, fun _ => rfl, rfl⟩
    | cons e es =>
      have hes2 : ∀ x ∈ e :: es, ∀ st2 : List Char,
          scanSt ⟨st2, false, false⟩ (ser x) = ⟨st2, false, false⟩ ∧
          (st2 ≠ [] → scanRes ⟨st2, false, false⟩ (ser x) = none) :=
        fun x hx st2 => ⟨(hes x hx st2).1, (hes x hx st2).2.1⟩
      have heq : ser (Json.arr (e :: es)) =
          '[' :: (ser e ++ serTailArr es ++ [']']) := by
        simp only [ser]
    -- the scan pushes the bracket, crosses the element chunks without
    -- touching the deeper stack, and pops back at the closing bracket
      have key : ∀ st2 : List Char,
          scanSt ⟨st2, false, false⟩ (ser (.arr (e :: es))) = ⟨st2, false, false⟩ ∧
          scanRes ⟨st2, false, false⟩ (ser (.arr (e :: es))) =
            (if st2.isEmpty then some ((ser (.arr (e :: es))).length - 1)
             else none) := by
        intro st2
        have hopen : scanStep ⟨st2, false, false⟩ '[' =
            (⟨'[' :: st2, false, false⟩, false) := rfl
        have hne2 : '[' :: st2 ≠ [] := by simp
        have he := hes2 e (List.mem_cons_self e es) ('[' :: st2)
        have ht := scan_serTailArr es
          (fun x hx => hes2 x (List.mem_cons_of_mem e hx)) ('[' :: st2) hne2
        have hdt := scan_chunk_seq he.1 (he.2 hne2) ht.1 ht.2
        have hclose : scanStep ⟨'[' :: st2, false, false⟩ ']' =
            (⟨st2, false, false⟩, st2.isEmpty) := rfl
        have hcl1 : scanSt ⟨'[' :: st2, false, false⟩ [']'] =
            ⟨st2, false, false⟩ := by
          rw [scanSt_cons, hclose]
          rfl
        have hcl2 : scanRes ⟨'[' :: st2, false, false⟩ [']'] =
            (if st2.isEmpty then some 0 else none) := by
          cases st2 <;> simp [scanRes, hclose]
        have hmid1 : scanSt ⟨'[' :: st2, false, false⟩
            ((ser e ++ serTailArr es) ++ [']']) = ⟨st2, false, false⟩ := by
          rw [scanSt_append, hdt.1, hcl1]
        have hmid2 : scanRes ⟨'[' :: st2, false, false⟩
            ((ser e ++ serTailArr es) ++ [']']) =
            (if st2.isEmpty then
              some ((ser e ++ serTailArr es).length) else none) := by
          rw [scanRes_chunk_skip hdt.1 hdt.2, hcl2]
          cases st2 <;> simp
        constructor
        · rw [heq, scanSt_cons, hopen]
          exact hmid1
        · rw [heq, scanRes_cons_notfound hopen, hmid2]
          cases st2 with
          | nil =>
            simp only [List.isEmpty_nil, if_true, heq]
            simp only [List.length_cons, List.length_append, List.length_nil]
            exact congrArg some (by omega)
          | cons y ys => rfl
      refine ⟨(key stack).1, ?_, ?_⟩
      · intro hst
        rw [(key stack).2]
        cases stack with
        | nil => exact absurd rfl hst
        | cons y ys => rfl
      · rw [(key []).2]
        rfl
  · intro fs hfs stack
    cases fs with
    | nil =>
      cases stack with
      | nil => exact ⟨rfl, fun h => absurd rfl h, rfl⟩
      | cons x xs => exact ⟨rfl, fun _ => rfl, rfl⟩
    | cons kv fs =>
      rcases kv with ⟨k, v⟩
      have hfs2 : ∀ x ∈ (k, v) :: fs, ∀ st2 : List Char,
          scanSt ⟨st2, false, false⟩ (ser x.2) = ⟨st2, false, false⟩ ∧
          (st2 ≠ [] → scanRes ⟨st2, false, false⟩ (ser x.2) = none) :=
        fun x hx st2 => ⟨(hfs x hx st2).1, (hfs x hx st2).2.1⟩
      have heq : ser (Json.obj ((k, v) :: fs)) =
          '{' :: (serStr k ++ ':' :: ser v ++ serTailObj fs ++ ['}']) := by
        simp only [ser]
      have key : ∀ st2 : List Char,
          scanSt ⟨st2, false, false⟩ (ser (.obj ((k, v) :: fs))) =
            ⟨st2, false, false⟩ ∧
          scanRes ⟨st2, false, false⟩ (ser (.obj ((k, v) :: fs))) =
            (if st2.isEmpty then some ((ser (.obj ((k, v) :: fs))).length - 1)
             else none) := by
        intro st2
        have hopen : scanStep ⟨st2, false, false⟩ '{' =
            (⟨'{' :: st2, false, false⟩, false) := rfl
        have hne2 : '{' :: st2 ≠ [] := by simp
        have hk := scan_serStr k ('{' :: st2)
        have hv := hfs2 (k, v) (List.mem_cons_self (k, v) fs) ('{' :: st2)
        have ht := scan_serTailObj fs
          (fun x hx => hfs2 x (List.mem_cons_of_mem (k, v) hx)) ('{' :: st2) hne2
        have hcolon : scanStep ⟨'{' :: st2, false, false⟩ ':' =
            (⟨'{' :: st2, false, false⟩, false) := rfl
        have hv1 : scanSt ⟨'{' :: st2, false, false⟩ (':' :: ser v) =
            ⟨'{' :: st2, false, false⟩ := by
          rw [scanSt_cons, hcolon]
          exact hv.1
        have hv2 : scanRes ⟨'{' :: st2, false, false⟩ (':' :: ser v) = none := by
          rw [scanRes_cons_notfound hcolon, hv.2 hne2]
        have hkv := scan_chunk_seq hk.1 hk.2 hv1 hv2
        have hkvt := scan_chunk_seq hkv.1 hkv.2 ht.1 ht.2
        have hclose : scanStep ⟨'{' :: st2, false, false⟩ '}' =
            (⟨st2, false, false⟩, st2.isEmpty) := rfl
        have hcl1 : scanSt ⟨'{' :: st2, false, false⟩ ['}'] =
            ⟨st2, false, false⟩ := by
          rw [scanSt_cons, hclose]
          rfl
        have hcl2 : scanRes ⟨'{' :: st2, false, false⟩ ['}'] =
            (if st2.isEmpty then some 0 else none) := by
          cases st2 <;> simp [scanRes, hclose]
        have hmid1 : scanSt ⟨'{' :: st2, false, false⟩
            ((serStr k ++ ':' :: ser v ++ serTailObj fs) ++ ['}']) =
            ⟨st2, false, false⟩ := by
          rw [scanSt_append, hkvt.1, hcl1]
        have hmid2 : scanRes ⟨'{' :: st2, false, false⟩
            ((serStr k ++ ':' :: ser v ++ serTailObj fs) ++ ['}']) =
            (if st2.isEmpty then
              some ((serStr k ++ ':' :: ser v ++ serTailObj fs).length)
             else none) := by
          rw [scanRes_chunk_skip hkvt.1 hkvt.2, hcl2]
          cases st2 <;> simp
        constructor
        · rw [heq, scanSt_cons, hopen]
          exact hmid1
        · rw [heq, scanRes_cons_notfound hopen, hmid2]
          cases st2 with
          | nil =>
            simp only [List.isEmpty_nil, if_true, heq]
            simp only [List.length_cons, List.length_append, List.length_nil]
            exact congrArg some (by omega)
          | cons y ys => rfl
      refine ⟨(key stack).1, ?_, ?_⟩
      · intro hst
        rw [(key stack).2]
        cases stack with
        | nil => exact absurd rfl hst
        | cons y ys => rfl
      · rw [(key []).2]
        rfl

/-! ## Parser round-trip lemmas -/

theorem takeWhile_append_all {p : Char → Bool} {xs ys : List Char}
    (h : ∀ c ∈ xs, p c = true) :
    List.takeWhile p (xs ++ ys) = xs ++ List.takeWhile p ys := by
  induction xs with
  | nil => simp
  | cons c cs ih =>
    rw [List.cons_append, List.takeWhile_cons,
      if_pos (h c (List.mem_cons_self c cs)), List.cons_append]
    rw [ih (fun x hx => h x (List.mem_cons_of_mem c hx))]

theorem parseStrBody_ser : ∀ (s : List Char), noCtrl s →
    ∀ rest, parseStrBody (escapeChars s ++ '"' :: rest) = some (s, rest) := by
  intro s
  induction s with
  | nil =>
    intro _ rest
    show parseStrBody ('"' :: rest) = some ([], rest)
    rw [parseStrBody.eq_def]
    simp
  | cons c cs ih =>
    intro hctl rest
    have hc32 : 32 ≤ c.toNat := hctl c (List.mem_cons_self c cs)
    have hcs : noCtrl cs := fun x hx => hctl x (List.mem_cons_of_mem c hx)
    by_cases hq : c = '"' ∨ c = '\\'
    · have heq : escapeChars (c :: cs) = '\\' :: c :: escapeChars cs := by
        simp [escapeChars, hq]
      rw [heq, List.cons_append, List.cons_append]
      rcases hq with rfl | rfl
      · rw [parseStrBody.eq_def]
        simp only [decodeEsc]
        simp [ih hcs rest]
      · rw [parseStrBody.eq_def]
        simp only [decodeEsc]
        simp [ih hcs rest]
    · push_neg at hq
      have heq : escapeChars (c :: cs) = c :: escapeChars cs := by
        simp [escapeChars, hq.1, hq.2]
      rw [heq, List.cons_append]
      rw [parseStrBody.eq_def]
      simp only []
      rw [if_neg hq.1, if_neg hq.2, if_neg (by omega : ¬ c.toNat < 32)]
      rw [ih hcs rest]

theorem foldl_digits (L : List Nat) (hL : ∀ d ∈ L, d < 10) :
    ((L.reverse.map digitChar).foldl (fun a c => 10 * a + digitVal c) 0) =
      Nat.ofDigits 10 L := by
  induction L with
  | nil => simp [Nat.ofDigits]
  | cons d L ih =>
    have hd := hL d (List.mem_cons_self d L)
    have hL2 : ∀ x ∈ L, x < 10 := fun x hx => hL x (List.mem_cons_of_mem d hx)
    rw [List.reverse_cons, List.map_append, List.foldl_append, ih hL2]
    simp only [List.map_cons, List.map_nil, List.foldl_cons, List.foldl_nil]
    rw [Nat.ofDigits_cons]
    have hdv : digitVal (digitChar d) = d := by
      unfold digitVal
      rw [(digitChar_facts hd).2.2.2.1]
      omega
    rw [hdv]
    ring

theorem foldl_natChars (m : Nat) :
    List.foldl (fun a c => 10 * a + digitVal c) 0 (natChars m) = m := by
  by_cases h : m = 0
  · subst h
    rfl
  · unfold natChars
    rw [if_neg h]
    rw [foldl_digits _ (fun d hd => Nat.digits_lt_base (by norm_num) hd)]
    exact Nat.ofDigits_digits 10 m

theorem parseNum_split (m : Nat) (rest : List Char)
    (hrest : numDelimB rest = true) :
    List.takeWhile (fun c => c.isDigit) (natChars m ++ rest) = natChars m ∧
    List.dropWhile (fun c => c.isDigit) (natChars m ++ rest) = rest ∧
    (natChars m).isEmpty = false ∧
    ¬ (2 ≤ (natChars m).length ∧ (natChars m).take 1 = ['0']) := by
  have hdigits := natChars_all_digits m
  have hhead : List.takeWhile (fun c => c.isDigit) rest = [] ∧
      List.dropWhile (fun c => c.isDigit) rest = rest := by
    cases rest with
    | nil => exact ⟨rfl, rfl⟩
    | cons c t =>
      have hcd : c.isDigit = false := by
        simp only [numDelimB, Bool.not_eq_true'] at hrest
        exact hrest
      exact ⟨by rw [List.takeWhile_cons, if_neg (by simp [hcd])],
        dropWhile_cons_false (by simp [hcd])⟩
  refine ⟨?_, ?_, ?_, ?_⟩
  · rw [takeWhile_append_all hdigits, hhead.1, List.append_nil]
  · rw [dropWhile_append_all hdigits, hhead.2]
  · cases hnc : natChars m with
    | nil => exact absurd hnc (natChars_ne_nil m)
    | cons c0 cs0 => rfl
  · rintro ⟨hlen, htake⟩
    cases hnc : natChars m with
    | nil => exact absurd hnc (natChars_ne_nil m)
    | cons c0 cs0 =>
      rw [hnc] at hlen htake
      cases cs0 with
      | nil => simp at hlen
      | cons c1 cs1 =>
        have hc0 : c0 = '0' := by
          rw [List.take_succ_cons] at htake
          simp only [List.take_zero, List.cons.injEq] at htake
          exact htake.1
        exact natChars_no_leading_zero (hc0 ▸ hnc)

theorem parseNum_natChars (m : Nat) (rest : List Char)
    (hrest : numDelimB rest = true) :
    parseNum (natChars m ++ rest) = some (.num (m : Int), rest) := by
  obtain ⟨h1, h2, h3, h4⟩ := parseNum_split m rest hrest
  have hmatch : (match natChars m ++ rest with
      | c :: _ => c == '-'
      | [] => false) = false := by
    cases hnc : natChars m with
    | nil => exact absurd hnc (natChars_ne_nil m)
    | cons c0 cs0 =>
      have hd : c0.isDigit = true := by
        apply natChars_all_digits m c0
        rw [hnc]
        exact List.mem_cons_self c0 cs0
      rw [List.cons_append]
      show (c0 == '-') = false
      cases hbe : c0 == '-'
      · rfl
      · exact absurd (eq_of_beq hbe) (ne_of_isDigit hd (by decide))
  simp only [parseNum, hmatch, if_false, Bool.false_eq_true, h1, h2, h3]
  rw [if_neg h4]
  rw [foldl_natChars]

theorem parseNum_intChars (n : Int) (rest : List Char)
    (hrest : numDelimB rest = true) :
    parseNum (intChars n ++ rest) = some (.num n, rest) := by
  by_cases hneg : n < 0
  · have heq : intChars n = '-' :: natChars n.natAbs := by
      unfold intChars
      rw [if_pos hneg]
    obtain ⟨h1, h2, h3, h4⟩ := parseNum_split n.natAbs rest hrest
    rw [heq, List.cons_append]
    have hmatch : (match '-' :: (natChars n.natAbs ++ rest) with
        | c :: _ => c == '-'
        | [] => false) = true := rfl
    simp only [parseNum, hmatch]
    simp only [beq_self_eq_true, eq_self_iff_true, if_true,
      List.drop_succ_cons, List.drop_zero, h1, h2, h3]
    rw [if_neg h4]
    rw [foldl_natChars]
    have hval : -((n.natAbs : Nat) : Int) = n := by omega
    rw [hval]
    rfl
  · have heq : intChars n = natChars n.toNat := by
      unfold intChars
      rw [if_neg hneg]
    rw [heq, parseNum_natChars n.toNat rest hrest]
    have hval : ((n.toNat : Nat) : Int) = n := by omega
    rw [hval]

theorem parseVal_digit (f : Nat) (c0 : Char) (X : List Char)
    (hdig : c0.isDigit = true) :
    parseVal (f + 1) (c0 :: X) = parseNum (c0 :: X) := by
  have hws := jsonWs_false_of_isDigit hdig
  simp only [parseVal, skipWs]
  rw [dropWhile_cons_false hws]
  split
  · rename_i heq
    cases heq
  · rename_i c rest heq
    injection heq with h1 h2
    subst h1
    subst h2
    rw [if_neg (ne_of_isDigit hdig (by decide)),
      if_neg (ne_of_isDigit hdig (by decide)),
      if_neg (ne_of_isDigit hdig (by decide)),
      if_neg (ne_of_isDigit hdig (by decide)),
      if_neg (ne_of_isDigit hdig (by decide)),
      if_neg (ne_of_isDigit hdig (by decide)),
      if_pos (Or.inr hdig)]

theorem ser_head_shape (v : Json) :
    ∃ c t, ser v = c :: t ∧ jsonWs c = false ∧ c ≠ ']' := by
  cases v with
  | null => exact ⟨'n', _, rfl, by decide, by decide⟩
  | bool b =>
    cases b
    · exact ⟨'f', _, rfl, by decide, by decide⟩
    · exact ⟨'t', _, rfl, by decide, by decide⟩
  | num n =>
    by_cases hneg : n < 0
    · refine ⟨'-', natChars n.natAbs, ?_, by decide, by decide⟩
      show intChars n = _
      unfold intChars
      rw [if_pos hneg]
    · cases hnc : natChars n.toNat with
      | nil => exact absurd hnc (natChars_ne_nil _)
      | cons c0 cs0 =>
        have hd : c0.isDigit = true := by
          apply natChars_all_digits
          rw [hnc]
          exact List.mem_cons_self c0 cs0
        refine ⟨c0, cs0, ?_, jsonWs_false_of_isDigit hd,
          ne_of_isDigit hd (by decide)⟩
        show intChars n = c0 :: cs0
        unfold intChars
        rw [if_neg hneg]
        exact hnc
  | str s => exact ⟨'"', _, rfl, by decide, by decide⟩
  | arr es =>
    cases es with
    | nil =>
      refine ⟨'[', [']'], ?_, by decide, by decide⟩
      simp only [ser]
    | cons e es =>
      refine ⟨'[', ser e ++ serTailArr es ++ [']'], ?_, by decide, by decide⟩
      simp only [ser]
  | obj fs =>
    cases fs with
    | nil =>
      refine ⟨'{', ['}'], ?_, by decide, by decide⟩
      simp only [ser]
    | cons kv fs =>
      rcases kv with ⟨k, v⟩
      refine ⟨'{', serStr k ++ ':' :: ser v ++ serTailObj fs ++ ['}'], ?_,
        by decide, by decide⟩
      simp only [ser]

theorem numDelimB_serTailArr (es : List Json) (r : List Char) :
    numDelimB (serTailArr es ++ (']' :: r)) = true := by
  cases es with
  | nil => rfl
  | cons e es =>
    have heq : serTailArr (e :: es) = ',' :: ser e ++ serTailArr es := by
      simp only [serTailArr]
    rw [heq]
    rfl

theorem numDelimB_serTailObj (fs : List (List Char × Json)) (r : List Char) :
    numDelimB (serTailObj fs ++ ('}' :: r)) = true := by
  cases fs with
  | nil => rfl
  | cons kv fs =>
    rcases kv with ⟨k, v⟩
    have heq : serTailObj ((k, v) :: fs) =
        ',' :: serStr k ++ ':' :: ser v ++ serTailObj fs := by
      simp only [serTailObj]
    rw [heq]
    rfl

theorem parseArrRest_ser (es : List Json)
    (hes : ∀ e ∈ es, ∀ (fuel : Nat) (rest : List Char),
      (ser e).length < fuel → numDelimB rest = true →
      parseVal fuel (ser e ++ rest) = some (e, rest)) :
    ∀ (fuel : Nat) (acc : List Json) (rest : List Char),
      (serTailArr es).length < fuel →
      parseArrRest fuel acc (serTailArr es ++ (']' :: rest)) =
        some (.arr (acc ++ es), rest) := by
  induction es with
  | nil =>
    intro fuel acc rest hf
    cases fuel with
    | zero => omega
    | succ f =>
      show parseArrRest (f + 1) acc (serTailArr [] ++ (']' :: rest)) = _
      rw [List.append_nil]
      rfl
  | cons e es ih =>
    intro fuel acc rest hf
    have heq : serTailArr (e :: es) = ',' :: ser e ++ serTailArr es := by
      simp only [serTailArr]
    have hlen : (serTailArr (e :: es)).length =
        1 + (ser e).length + (serTailArr es).length := by
      rw [heq]
      simp [List.length_append]
      omega
    cases fuel with
    | zero => omega
    | succ f =>
      rw [heq]
      simp only [List.cons_append, List.append_assoc]
      have hred : parseArrRest (f + 1) acc
          (',' :: (ser e ++ (serTailArr es ++ (']' :: rest)))) =
          (match parseVal f (ser e ++ (serTailArr es ++ (']' :: rest))) with
           | none => none
           | some (v, rem2) => parseArrRest f (acc ++ [v]) rem2) := rfl
      rw [hred]
      rw [hes e (List.mem_cons_self e es) f _ (by omega)
        (numDelimB_serTailArr es rest)]
      show parseArrRest f (acc ++ [e]) (serTailArr es ++ (']' :: rest)) = _
      rw [ih (fun x hx => hes x (List.mem_cons_of_mem e hx)) f (acc ++ [e])
        rest (by omega)]
      simp

theorem parseObjRest_ser (fs : List (List Char × Json))
    (hfs : ∀ kv ∈ fs, noCtrl kv.1 ∧
      ∀ (fuel : Nat) (rest : List Char),
        (ser kv.2).length < fuel → numDelimB rest = true →
        parseVal fuel (ser kv.2 ++ rest) = some (kv.2, rest)) :
    ∀ (fuel : Nat) (acc : List (List Char × Json)) (rest : List Char),
      (serTailObj fs).length < fuel →
      parseObjRest fuel acc (serTailObj fs ++ ('}' :: rest)) =
        some (.obj (acc ++ fs), rest) := by
  induction fs with
  | nil =>
    intro fuel acc rest hf
    cases fuel with
    | zero => omega
    | succ f =>
      show parseObjRest (f + 1) acc (serTailObj [] ++ ('}' :: rest)) = _
      rw [List.append_nil]
      rfl
  | cons kv fs ih =>
    rcases kv with ⟨k, v⟩
    intro fuel acc rest hf
    have hk : noCtrl k := (hfs (k, v) (List.mem_cons_self (k, v) fs)).1
    have hv : ∀ (fuel : Nat) (rest : List Char),
        (ser v).length < fuel → numDelimB rest = true →
        parseVal fuel (ser v ++ rest) = some (v, rest) :=
      (hfs (k, v) (List.mem_cons_self (k, v) fs)).2
    have heq : serTailObj ((k, v) :: fs) =
        ',' :: serStr k ++ ':' :: ser v ++ serTailObj fs := by
      simp only [serTailObj]
    have hlen : (serTailObj ((k, v) :: fs)).length =
        1 + (serStr k).length + 1 + (ser v).length +
          (serTailObj fs).length := by
      rw [heq]
      simp [List.length_append]
      omega
    cases fuel with
    | zero => omega
    | succ f =>
      rw [heq]
      have hserStr : serStr k = '"' :: (escapeChars k ++ ['"']) := rfl
      rw [hserStr]
      simp only [List.cons_append, List.append_assoc, List.singleton_append,
        List.nil_append]
      have hred : parseObjRest (f + 1) acc
          (',' :: '"' :: (escapeChars k ++
            ('"' :: (':' :: (ser v ++ (serTailObj fs ++ ('}' :: rest))))))) =
          (match parseStrBody (escapeChars k ++
              ('"' :: (':' :: (ser v ++ (serTailObj fs ++ ('}' :: rest)))))) with
           | none => none
           | some (k2, rem3) =>
             match skipWs rem3 with
             | ':' :: rem4 =>
               match parseVal f rem4 with
               | none => none
               | some (v2, rem5) => parseObjRest f (acc ++ [(k2, v2)]) rem5
             | _ => none) := rfl
      rw [hred]
      rw [parseStrBody_ser k hk (':' :: (ser v ++ (serTailObj fs ++ ('}' :: rest))))]
      show (match parseVal f (ser v ++ (serTailObj fs ++ ('}' :: rest))) with
           | none => none
           | some (v2, rem5) => parseObjRest f (acc ++ [(k, v2)]) rem5) = _
      rw [hv f _ (by omega) (numDelimB_serTailObj fs rest)]
      show parseObjRest f (acc ++ [(k, v)]) (serTailObj fs ++ ('}' :: rest)) = _
      rw [ih (fun x hx => hfs x (List.mem_cons_of_mem (k, v) hx)) f
        (acc ++ [(k, v)]) rest (by omega)]
      simp

theorem parseVal_ser : ∀ v : Json, Wf v →
    ∀ (fuel : Nat) (rest : List Char),
      (ser v).length < fuel → numDelimB rest = true →
      parseVal fuel (ser v ++ rest) = some (v, rest) := by
  refine Json.recAux ?_ ?_ ?_ ?_ ?_ ?_
  · intro _ fuel rest hf _
    cases fuel with
    | zero => exact absurd hf (Nat.not_lt_zero _)
    | succ f => rfl
  · intro b _ fuel rest hf _
    cases fuel with
    | zero => exact absurd hf (Nat.not_lt_zero _)
    | succ f => cases b <;> rfl
  · intro n _ fuel rest hf hrest
    cases fuel with
    | zero => exact absurd hf (Nat.not_lt_zero _)
    | succ f =>
      have hser : ser (.num n) = intChars n := rfl
      rw [hser]
      by_cases hneg : n < 0
      · have heq : intChars n = '-' :: natChars n.natAbs := by
          unfold intChars
          rw [if_pos hneg]
        rw [heq, List.cons_append]
        have hred : parseVal (f + 1) ('-' :: (natChars n.natAbs ++ rest)) =
            parseNum ('-' :: (natChars n.natAbs ++ rest)) := rfl
        rw [hred, ← List.cons_append, ← heq]
        exact parseNum_intChars n rest hrest
      · have heq : intChars n = natChars n.toNat := by
          unfold intChars
          rw [if_neg hneg]
        cases hnc : natChars n.toNat with
        | nil => exact absurd hnc (natChars_ne_nil _)
        | cons c0 cs0 =>
          have hd : c0.isDigit = true := by
            apply natChars_all_digits n.toNat c0
            rw [hnc]
            exact List.mem_cons_self c0 cs0
          rw [heq, hnc, List.cons_append, parseVal_digit f c0 _ hd,
            ← List.cons_append, ← hnc, ← heq]
          exact parseNum_intChars n rest hrest
  · intro s hwf fuel rest hf _
    have hs : noCtrl s := by
      cases hwf
      assumption
    cases fuel with
    | zero => exact absurd hf (Nat.not_lt_zero _)
    | succ f =>
      have hser : ser (.str s) = '"' :: (escapeChars s ++ ['"']) := rfl
      rw [hser, List.cons_append, List.append_assoc, List.singleton_append]
      have hred : parseVal (f + 1)
          ('"' :: (escapeChars s ++ '"' :: rest)) =
          (match parseStrBody (escapeChars s ++ '"' :: rest) with
           | none => none
           | some (cs, rem) => some (.str cs, rem)) := rfl
      rw [hred, parseStrBody_ser s hs rest]
  · intro es hes hwf fuel rest hf hrest
    have hwfes : ∀ e ∈ es, Wf e := by
      cases hwf
      assumption
    cases fuel with
    | zero => exact absurd hf (Nat.not_lt_zero _)
    | succ f =>
      cases es with
      | nil => rfl
      | cons e es2 =>
        have heq : ser (.arr (e :: es2)) =
            '[' :: (ser e ++ serTailArr es2 ++ [']']) := by
          simp only [ser]
        have hf2 : (ser e).length < f ∧ (serTailArr es2).length < f := by
          rw [heq] at hf
          simp [List.length_append] at hf
          omega
        rw [heq]
        simp only [List.cons_append, List.append_assoc, List.singleton_append,
          List.nil_append]
        obtain ⟨c0, t, he, hws0, hne⟩ := ser_head_shape e
        rw [he, List.cons_append]
        have hskip : skipWs (c0 :: (t ++ (serTailArr es2 ++ (']' :: rest)))) =
            c0 :: (t ++ (serTailArr es2 ++ (']' :: rest))) :=
          dropWhile_cons_false hws0
        have hred : parseVal (f + 1)
            ('[' :: c0 :: (t ++ (serTailArr es2 ++ (']' :: rest)))) =
            (match skipWs (c0 :: (t ++ (serTailArr es2 ++ (']' :: rest)))) with
             | ']' :: rem => some (.arr [], rem)
             | _ =>
               match parseVal f (c0 :: (t ++ (serTailArr es2 ++ (']' :: rest)))) with
               | none => none
               | some (v, rem) => parseArrRest f [v] rem) := rfl
        rw [hred, hskip]
        split
        · rename_i rem heqm
          injection heqm with h1 h2
          exact absurd h1 hne
        · rw [← List.cons_append, ← he]
          rw [hes e (List.mem_cons_self e es2)
            (hwfes e (List.mem_cons_self e es2)) f _ hf2.1
            (numDelimB_serTailArr es2 rest)]
          show parseArrRest f [e] (serTailArr es2 ++ (']' :: rest)) = _
          rw [parseArrRest_ser es2
            (fun x hx => hes x (List.mem_cons_of_mem e hx)
              (hwfes x (List.mem_cons_of_mem e hx))) f [e] rest hf2.2]
          rfl
  · intro fs hfs hwf fuel rest hf hrest
    have hwfk : ∀ kv ∈ fs, noCtrl kv.1 := by
      cases hwf
      assumption
    have hwfv : ∀ kv ∈ fs, Wf kv.2 := by
      cases hwf
      assumption
    cases fuel with
    | zero => exact absurd hf (Nat.not_lt_zero _)
    | succ f =>
      cases fs with
      | nil => rfl
      | cons kv fs2 =>
        rcases kv with ⟨k, v⟩
        have hk : noCtrl k := hwfk (k, v) (List.mem_cons_self (k, v) fs2)
        have hv : Wf v := hwfv (k, v) (List.mem_cons_self (k, v) fs2)
        have heq : ser (.obj ((k, v) :: fs2)) =
            '{' :: (serStr k ++ ':' :: ser v ++ serTailObj fs2 ++ ['}']) := by
          simp only [ser]
        have hf2 : (ser v).length < f ∧ (serTailObj fs2).length < f := by
          rw [heq] at hf
          simp [List.length_append, serStr] at hf
          omega
        rw [heq]
        have hserStr : serStr k = '"' :: (escapeChars k ++ ['"']) := rfl
        rw [hserStr]
        simp only [List.cons_append, List.append_assoc, List.singleton_append,
          List.nil_append]
        have hred : parseVal (f + 1)
            ('{' :: '"' :: (escapeChars k ++
              ('"' :: (':' :: (ser v ++ (serTailObj fs2 ++ ('}' :: rest))))))) =
            (match parseStrBody (escapeChars k ++
                ('"' :: (':' :: (ser v ++ (serTailObj fs2 ++ ('}' :: rest)))))) with
             | none => none
             | some (k2, rem2) =>
               match skipWs rem2 with
               | ':' :: rem3 =>
                 match parseVal f rem3 with
                 | none => none
                 | some (v2, rem4) => parseObjRest f [(k2, v2)] rem4
               | _ => none) := rfl
        rw [hred, parseStrBody_ser k hk
          (':' :: (ser v ++ (serTailObj fs2 ++ ('}' :: rest))))]
        show (match parseVal f (ser v ++ (serTailObj fs2 ++ ('}' :: rest))) with
             | none => none
             | some (v2, rem4) => parseObjRest f [(k, v2)] rem4) = _
        rw [hfs (k, v) (List.mem_cons_self (k, v) fs2) hv f _ hf2.1
          (numDelimB_serTailObj fs2 rest)]
        show parseObjRest f [(k, v)] (serTailObj fs2 ++ ('}' :: rest)) = _
        have hrec : ∀ kv ∈ fs2, noCtrl kv.1 ∧
            ∀ (fuel : Nat) (rst : List Char),
              (ser kv.2).length < fuel → numDelimB rst = true →
              parseVal fuel (ser kv.2 ++ rst) = some (kv.2, rst) :=
          fun kv hkv => ⟨hwfk kv (List.mem_cons_of_mem (k, v) hkv),
            hfs kv (List.mem_cons_of_mem (k, v) hkv)
              (hwfv kv (List.mem_cons_of_mem (k, v) hkv))⟩
        rw [parseObjRest_ser fs2 hrec f [(k, v)] rest hf2.2]
        rfl

theorem json_loads_ser (v : Json) (hwf : Wf v) : json_loads (ser v) = some v := by
  unfold json_loads
  have h := parseVal_ser v hwf ((ser v).length + 1) [] (by omega) rfl
  rw [List.append_nil] at h
  rw [h]
  rfl

theorem skipWs_all_space : ∀ s : List Char, (∀ c ∈ s, pySpace c = true) →
    skipWs s = [] ∨ ∃ c rest, skipWs s = c :: rest ∧ pySpace c = true ∧
      jsonWs c = false := by
  intro s
  induction s with
  | nil =>
    intro _
    left
    rfl
  | cons c cs ih =>
    intro h
    by_cases hws : jsonWs c = true
    · have heq : skipWs (c :: cs) = skipWs cs := by
        simp [skipWs, List.dropWhile_cons, hws]
      rw [heq]
      exact ih (fun x hx => h x (List.mem_cons_of_mem c hx))
    · rw [Bool.not_eq_true] at hws
      right
      exact ⟨c, cs, dropWhile_cons_false hws, h c (List.mem_cons_self c cs), hws⟩

theorem parseVal_all_space (s : List Char) (h : ∀ c ∈ s, pySpace c = true) :
    ∀ fuel, parseVal fuel s = none := by
  intro fuel
  cases fuel with
  | zero => rfl
  | succ f =>
    rcases skipWs_all_space s h with hnil | ⟨c, rest, hcons, hsp, hws⟩
    · simp only [parseVal]
      rw [hnil]
    · simp only [parseVal]
      rw [hcons]
      have hc : c = Char.ofNat 11 ∨ c = Char.ofNat 12 := by
        simp only [pySpace, Bool.or_eq_true, beq_iff_eq] at hsp
        simp only [jsonWs, Bool.or_eq_true, beq_iff_eq] at hws
        rcases hsp with ((((h1 | h1) | h1) | h1) | h1) | h1
        · rw [h1] at hws
          simp at hws
        · rw [h1] at hws
          simp at hws
        · rw [h1] at hws
          simp at hws
        · rw [h1] at hws
          simp at hws
        · exact Or.inl h1
        · exact Or.inr h1
      rcases hc with rfl | rfl <;> rfl

theorem json_loads_all_space (s : List Char) (h : ∀ c ∈ s, pySpace c = true) :
    json_loads s = none := by
  unfold json_loads
  rw [parseVal_all_space s h]

theorem all_space_of_pyStrip_nil {s : List Char} (h : pyStrip s = []) :
    ∀ c ∈ s, pySpace c = true := by
  intro c hc
  have h2 : List.dropWhile pySpace ((List.dropWhile pySpace s).reverse) = [] := by
    have h3 := h
    simp only [pyStrip, stripRight, List.reverse_eq_nil_iff] at h3
    exact h3
  have hall : ∀ x ∈ (List.dropWhile pySpace s).reverse, pySpace x = true :=
    List.dropWhile_eq_nil_iff.mp h2
  have hall2 : ∀ x ∈ List.dropWhile pySpace s, pySpace x = true := by
    intro x hx
    exact hall x (List.mem_reverse.mpr hx)
  have hsplit : c ∈ List.takeWhile pySpace s ++ List.dropWhile pySpace s := by
    rw [List.takeWhile_append_dropWhile]
    exact hc
  rcases List.mem_append.mp hsplit with h1 | h1
  · exact List.mem_takeWhile_imp h1
  · exact hall2 c h1

theorem extract_of_loads {output : List Char} {v : Json}
    (h : json_loads output = some v) :
    extract_json_from_output output = some v := by
  have hne : (pyStrip output).isEmpty = false := by
    cases hstrip : pyStrip output with
    | nil =>
      rw [json_loads_all_space output (all_space_of_pyStrip_nil hstrip)] at h
      cases h
    | cons a l => rfl
  simp only [extract_json_from_output, hne, Bool.false_eq_true, if_false, h]

theorem extract_all_space {output : List Char}
    (h : ∀ c ∈ output, pySpace c = true) :
    extract_json_from_output output = none := by
  have hs : (pyStrip output).isEmpty = true := by
    rw [pyStrip_all_space h]
    rfl
  simp only [extract_json_from_output, hs, if_true]

theorem extract_no_bracket {output : List Char}
    (hl : json_loads output = none)
    (h1 : ∀ c ∈ pyStrip output, (c == '{') = false)
    (h2 : ∀ c ∈ pyStrip output, (c == '[') = false) :
    extract_json_from_output output = none := by
  cases hne : (pyStrip output).isEmpty with
  | true => simp only [extract_json_from_output, hne, if_true]
  | false =>
    simp only [extract_json_from_output, hne, Bool.false_eq_true, if_false, hl,
      findIdx?_none_of_all (pyStrip output) 0 h1,
      findIdx?_none_of_all (pyStrip output) 0 h2]

theorem scanStep_no_closer {st : ScanState} {c : Char}
    (h1 : (c == '}') = false) (h2 : (c == ']') = false) :
    (scanStep st c).2 = false := by
  unfold scanStep
  simp only [h1, h2, Bool.or_self, Bool.false_or, Bool.or_false,
    Bool.false_eq_true, if_false]
  split
  · rfl
  · split
    · split
      · rfl
      · rfl
    · rfl

theorem scanRes_no_closer : ∀ (l : List Char) (st : ScanState),
    (∀ c ∈ l, (c == '}') = false ∧ (c == ']') = false) →
    scanRes st l = none := by
  intro l
  induction l with
  | nil =>
    intro st _
    rfl
  | cons c cs ih =>
    intro st h
    have hc := h c (List.mem_cons_self c cs)
    rcases hstep : scanStep st c with ⟨st2, found⟩
    have hf : found = false := by
      have h2 := @scanStep_no_closer st c hc.1 hc.2
      rw [hstep] at h2
      exact h2
    subst hf
    simp only [scanRes, hstep, Bool.false_eq_true, if_false]
    rw [ih st2 (fun x hx => h x (List.mem_cons_of_mem c hx))]

theorem extract_no_closers {output : List Char}
    (hl : json_loads output = none)
    (h : ∀ c ∈ output, (c == '}') = false ∧ (c == ']') = false) :
    extract_json_from_output output = none := by
  cases hne : (pyStrip output).isEmpty with
  | true => simp only [extract_json_from_output, hne, if_true]
  | false =>
    have hscan : ∀ start : Nat,
        scanRes ⟨[], false, false⟩ ((pyStrip output).drop start) = none := by
      intro start
      apply scanRes_no_closer
      intro c hc
      exact h c (mem_pyStrip (List.mem_of_mem_drop hc))
    simp only [extract_json_from_output, hne, Bool.false_eq_true, if_false, hl]
    rcases hidx : (match List.findIdx? (fun c => c == '{') (pyStrip output) 0 with
        | some i => some i
        | none => List.findIdx? (fun c => c == '[') (pyStrip output) 0) with _ | start
    · rw [hidx]
    · rw [hidx]
      show (match scanRes ⟨[], false, false⟩
            (List.drop start (pyStrip output)) with
        | none => none
        | some irel =>
          json_loads (List.take (irel + 1)
            (List.drop start (pyStrip output)))) = none
      rw [hscan start]

theorem ser_obj_shape (fs : List (List Char × Json)) :
    ∃ mid, ser (.obj fs) = '{' :: (mid ++ ['}']) := by
  cases fs with
  | nil =>
    refine ⟨[], ?_⟩
    simp only [ser]
    rfl
  | cons kv fs2 =>
    rcases kv with ⟨k, v⟩
    refine ⟨serStr k ++ ':' :: ser v ++ serTailObj fs2, ?_⟩
    simp only [ser]

theorem ser_arr_shape (es : List Json) :
    ∃ mid, ser (.arr es) = '[' :: (mid ++ [']']) := by
  cases es with
  | nil =>
    refine ⟨[], ?_⟩
    simp only [ser]
    rfl
  | cons e es2 =>
    refine ⟨ser e ++ serTailArr es2, ?_⟩
    simp only [ser]

theorem extract_noisy_obj (pre post : List Char) (fs : List (List Char × Json))
    (hwf : Wf (.obj fs))
    (hl : json_loads (pre ++ ser (.obj fs) ++ post) = none)
    (hpre : ∀ c ∈ pre, (c == '{') = false) :
    extract_json_from_output (pre ++ ser (.obj fs) ++ post) =
      some (.obj fs) := by
  obtain ⟨mid, hser⟩ := ser_obj_shape fs
  have hstrip : pyStrip (pre ++ ser (.obj fs) ++ post) =
      List.dropWhile pySpace pre ++ ('{' :: (mid ++ ['}'])) ++
        stripRight post := by
    rw [hser]
    exact pyStrip_decomp (by decide) (by decide)
  have hpre2 : ∀ c ∈ List.dropWhile pySpace pre, (c == '{') = false :=
    fun c hc => hpre c (mem_of_mem_dropWhile hc)
  have hfind : List.findIdx? (fun c => c == '{')
      (pyStrip (pre ++ ser (.obj fs) ++ post)) 0 =
      some (List.dropWhile pySpace pre).length := by
    rw [hstrip]
    have hgr : List.dropWhile pySpace pre ++ ('{' :: (mid ++ ['}'])) ++
        stripRight post =
        List.dropWhile pySpace pre ++
          '{' :: ((mid ++ ['}']) ++ stripRight post) := by
      simp [List.append_assoc]
    rw [hgr, findIdx?_first (List.dropWhile pySpace pre) 0 '{' _ hpre2 rfl]
    simp
  have hdrop : List.drop (List.dropWhile pySpace pre).length
      (pyStrip (pre ++ ser (.obj fs) ++ post)) =
      ser (.obj fs) ++ stripRight post := by
    rw [hstrip, List.append_assoc, List.drop_left, hser]
  have hscan : scanRes ⟨[], false, false⟩
      (ser (.obj fs) ++ stripRight post) =
      some ((ser (.obj fs)).length - 1) := by
    rw [scanRes_append, (scan_ser (.obj fs) []).2.2]
    rfl
  have hlen : (ser (.obj fs)).length - 1 + 1 = (ser (.obj fs)).length := by
    rw [hser]
    simp
  have hne : (pyStrip (pre ++ ser (.obj fs) ++ post)).isEmpty = false := by
    rw [hstrip]
    cases hq : List.dropWhile pySpace pre with
    | nil =>
      rw [List.nil_append]
      rfl
    | cons a l => rfl
  simp only [extract_json_from_output, hne, Bool.false_eq_true, if_false, hl,
    hfind]
  show (match scanRes ⟨[], false, false⟩
        (List.drop (List.dropWhile pySpace pre).length
          (pyStrip (pre ++ ser (.obj fs) ++ post))) with
    | none => none
    | some irel =>
      json_loads (List.take (irel + 1)
        (List.drop (List.dropWhile pySpace pre).length
          (pyStrip (pre ++ ser (.obj fs) ++ post))))) = some (.obj fs)
  rw [hdrop, hscan]
  show json_loads (List.take ((ser (.obj fs)).length - 1 + 1)
    (ser (.obj fs) ++ stripRight post)) = some (.obj fs)
  rw [hlen, List.take_left, json_loads_ser _ hwf]

theorem extract_noisy_arr (pre post : List Char) (es : List Json)
    (hwf : Wf (.arr es))
    (hl : json_loads (pre ++ ser (.arr es) ++ post) = none)
    (hpre1 : ∀ c ∈ pre, (c == '{') = false)
    (hpre2 : ∀ c ∈ pre, (c == '[') = false)
    (hser1 : ∀ c ∈ ser (.arr es), (c == '{') = false)
    (hpost1 : ∀ c ∈ post, (c == '{') = false) :
    extract_json_from_output (pre ++ ser (.arr es) ++ post) =
      some (.arr es) := by
  obtain ⟨mid, hser⟩ := ser_arr_shape es
  have hstrip : pyStrip (pre ++ ser (.arr es) ++ post) =
      List.dropWhile pySpace pre ++ ('[' :: (mid ++ [']'])) ++
        stripRight post := by
    rw [hser]
    exact pyStrip_decomp (by decide) (by decide)
  have hpre2d : ∀ c ∈ List.dropWhile pySpace pre, (c == '[') = false :=
    fun c hc => hpre2 c (mem_of_mem_dropWhile hc)
  have hnocurly : ∀ c ∈ pyStrip (pre ++ ser (.arr es) ++ post),
      (c == '{') = false := by
    intro c hc
    have hmem := mem_pyStrip hc
    rcases List.mem_append.mp hmem with hm | hm
    · rcases List.mem_append.mp hm with hm2 | hm2
      · exact hpre1 c hm2
      · exact hser1 c hm2
    · exact hpost1 c hm
  have hfind1 : List.findIdx? (fun c => c == '{')
      (pyStrip (pre ++ ser (.arr es) ++ post)) 0 = none :=
    findIdx?_none_of_all _ 0 hnocurly
  have hfind2 : List.findIdx? (fun c => c == '[')
      (pyStrip (pre ++ ser (.arr es) ++ post)) 0 =
      some (List.dropWhile pySpace pre).length := by
    rw [hstrip]
    have hgr : List.dropWhile pySpace pre ++ ('[' :: (mid ++ [']'])) ++
        stripRight post =
        List.dropWhile pySpace pre ++
          '[' :: ((mid ++ [']']) ++ stripRight post) := by
      simp [List.append_assoc]
    rw [hgr, findIdx?_first (List.dropWhile pySpace pre) 0 '[' _ hpre2d rfl]
    simp
  have hdrop : List.drop (List.dropWhile pySpace pre).length
      (pyStrip (pre ++ ser (.arr es) ++ post)) =
      ser (.arr es) ++ stripRight post := by
    rw [hstrip, List.append_assoc, List.drop_left, hser]
  have hscan : scanRes ⟨[], false, false⟩
      (ser (.arr es) ++ stripRight post) =
      some ((ser (.arr es)).length - 1) := by
    rw [scanRes_append, (scan_ser (.arr es) []).2.2]
    rfl
  have hlen : (ser (.arr es)).length - 1 + 1 = (ser (.arr es)).length := by
    rw [hser]
    simp
  have hne : (pyStrip (pre ++ ser (.arr es) ++ post)).isEmpty = false := by
    rw [hstrip]
    cases hq : List.dropWhile pySpace pre with
    | nil =>
      rw [List.nil_append]
      rfl
    | cons a l => rfl
  simp only [extract_json_from_output, hne, Bool.false_eq_true, if_false, hl,
    hfind1, hfind2]
  show (match scanRes ⟨[], false, false⟩
        (List.drop (List.dropWhile pySpace pre).length
          (pyStrip (pre ++ ser (.arr es) ++ post))) with
    | none => none
    | some irel =>
      json_loads (List.take (irel + 1)
        (List.drop (List.dropWhile pySpace pre).length
          (pyStrip (pre ++ ser (.arr es) ++ post))))) = some (.arr es)
  rw [hdrop, hscan]
  show json_loads (List.take ((ser (.arr es)).length - 1 + 1)
    (ser (.arr es) ++ stripRight post)) = some (.arr es)
  rw [hlen, List.take_left, json_loads_ser _ hwf]

/-- C1 counterexample: the output text built from the noise prefix and
the serialized array (rendering as the characters of
x [\x7b"a":"b"\x7d, "c"]) contains exactly one well-formed JSON value
— the two-element array — surrounded by non-JSON noise, yet
`extract_json_from_output` returns the array's inner object rather
than the array: the extractor looks for the first `{` anywhere in the
stripped text before even considering `[`, so the claimed behaviour
(return the one embedded object-or-array) is refuted. -/
theorem C1_json_extraction_counterexample :
    extract_json_from_output
      (String.toList "x " ++
        ser (.arr [.obj [(['a'], .str ['b'])], .str ['c']])) =
      some (.obj [(['a'], .str ['b'])]) ∧
    extract_json_from_output
      (String.toList "x " ++
        ser (.arr [.obj [(['a'], .str ['b'])], .str ['c']])) ≠
      some (.arr [.obj [(['a'], .str ['b'])], .str ['c']]) := by
  constructor
  · rfl
  · intro hcontra
    have h1 : extract_json_from_output
        (String.toList "x " ++
          ser (.arr [.obj [(['a'], .str ['b'])], .str ['c']])) =
        some (.obj [(['a'], .str ['b'])]) := rfl
    rw [h1] at hcontra
    injection hcontra with h2
    exact Json.noConfusion h2

/-- C1 (amended): behaviour of `extract_json_from_output` (deploy.py
lines 201-243). (1) Output that parses as JSON in its entirety is
returned as parsed. (2) A well-formed JSON object embedded in noise is
recovered exactly, provided the noise before it contains no `{` (the
extractor starts at the first `{` anywhere in the stripped text).
(3) A well-formed JSON array embedded in noise is recovered exactly,
provided no `{` occurs in the prefix noise, in the serialized array,
or in the suffix noise, and no `[` occurs in the prefix noise (a `{`
anywhere would be preferred over the array's `[`). (4) Empty or
whitespace-only output yields none. (5) Unparseable output whose
stripped text contains no `{` and no `[` yields none. (6) Unparseable
output with unbalanced brackets in the sense that no closing `}` or
`]` occurs at all yields none. -/
theorem C1_json_extraction_amended :
    (∀ (output : List Char) (v : Json),
        json_loads output = some v →
        extract_json_from_output output = some v) ∧
    (∀ (pre post : List Char) (fs : List (List Char × Json)),
        Wf (.obj fs) →
        json_loads (pre ++ ser (.obj fs) ++ post) = none →
        (∀ c ∈ pre, (c == '{') = false) →
        extract_json_from_output (pre ++ ser (.obj fs) ++ post) =
          some (.obj fs)) ∧
    (∀ (pre post : List Char) (es : List Json),
        Wf (.arr es) →
        json_loads (pre ++ ser (.arr es) ++ post) = none →
        (∀ c ∈ pre, (c == '{') = false) →
        (∀ c ∈ pre, (c == '[') = false) →
        (∀ c ∈ ser (.arr es), (c == '{') = false) →
        (∀ c ∈ post, (c == '{') = false) →
        extract_json_from_output (pre ++ ser (.arr es) ++ post) =
          some (.arr es)) ∧
    (∀ output : List Char, (∀ c ∈ output, pySpace c = true) →
        extract_json_from_output output = none) ∧
    (∀ output : List Char,
        json_loads output = none →
        (∀ c ∈ pyStrip output, (c == '{') = false) →
        (∀ c ∈ pyStrip output, (c == '[') = false) →
        extract_json_from_output output = none) ∧
    (∀ output : List Char,
        json_loads output = none →
        (∀ c ∈ output, (c == '}') = false ∧ (c == ']') = false) →
        extract_json_from_output output = none) :=
  ⟨fun _ _ h => extract_of_loads h,
   fun pre post fs hwf hl hpre => extract_noisy_obj pre post fs hwf hl hpre,
   fun pre post es hwf hl h1 h2 h3 h4 =>
     extract_noisy_arr pre post es hwf hl h1 h2 h3 h4,
   fun _ h => extract_all_space h,
   fun _ hl h1 h2 => extract_no_bracket hl h1 h2,
   fun _ hl h => extract_no_closers hl h⟩

/-- C1 witness: the amended theorem's embedded-object case applied to
the serialized object with key a and value b surrounded by the noise
prefix error-colon-space and suffix space-done. -/
theorem C1_json_extraction_amended_witness :
    extract_json_from_output
      (String.toList "error: " ++ ser (.obj [(['a'], .str ['b'])]) ++
        String.toList " done") = some (.obj [(['a'], .str ['b'])]) :=
  C1_json_extraction_amended.2.1 (String.toList "error: ")
    (String.toList " done") [(['a'], .str ['b'])]
    (Wf.obj _
      (by
        intro kv hkv
        have h := List.mem_singleton.mp hkv
        subst h
        intro c hc
        have h2 := List.mem_singleton.mp hc
        subst h2
        decide)
      (by
        intro kv hkv
        have h := List.mem_singleton.mp hkv
        subst h
        refine Wf.str _ ?_
        intro c hc
        have h2 := List.mem_singleton.mp hc
        subst h2
        decide))
    (by rfl) (by decide)

end ChatbotSpec
